/-
  Verification of the GPSTk PackedNavBits bit-buffer codec
  (src/core/lib/GNSSEph/PackedNavBits.cpp) against its natural-language
  specification.

  The C++ class is shallowly embedded: the `std::vector<bool> bits` storage
  becomes a `List Bool`, machine integers become `Nat`/`Int` with explicit
  `% 2^64` where 64-bit wrap-around matters, and fallible operations
  (C++ `GPSTK_THROW`) return `Except String`.  `vector<bool>::operator[]`
  writes are modelled with `List.set` (a no-op out of range, where the C++
  behaviour is undefined); every theorem touching a write therefore carries
  an explicit in-bounds hypothesis.
-/
import Mathlib

set_option maxRecDepth 65536

namespace GPSTk

/-- The PackedNavBits object.  `bits` is the backing storage
(`std::vector<bool> bits`, created with 900 cells by the constructors) and
`bits_used` the count of logically valid bits.  The metadata members
(`satSys`, `obsID`, `navID`) are opaque identifier values, compared but never
interpreted by this class; they are modelled as `Nat`.  `transmitTime` is an
opaque timestamp supporting subtraction to a seconds difference; it is
modelled as `ℚ`.  `parityStatus` is the tri-state member (psUnknown = 0). -/
structure PackedNavBits where
  satSys : Nat
  obsID : Nat
  navID : Nat
  rxID : String
  transmitTime : ℚ
  parityStatus : Nat
  bits : List Bool
  bits_used : Nat
  xMitCoerced : Bool
deriving DecidableEq, Repr

namespace PackedNavBits

/-- The default constructor `PackedNavBits::PackedNavBits()`: 900 storage
cells, `bits_used = 0`, defaulted metadata (the opaque
`CommonTime::BEGINNING_OF_TIME` is modelled as `0`). -/
def freshPNB : PackedNavBits :=
  { satSys := 0, obsID := 0, navID := 0, rxID := "",
    transmitTime := 0, parityStatus := 0,
    bits := List.replicate 900 false, bits_used := 0, xMitCoerced := false }

/-- The accumulation loop of `asUint64_t`: `temp <<= 1; if (bits[i]) temp++;`
on a `uint64_t`, i.e. MSB-first fold with 64-bit wrap-around. -/
def bitsToNat64 (l : List Bool) : Nat :=
  l.foldl (fun a bit => (2 * a + (if bit then 1 else 0)) % 2 ^ 64) 0

/-- The same MSB-first accumulation without the 64-bit wrap (they agree for
at most 64 bits, see `bitsToNat64_eq`). -/
def bitsToNat (l : List Bool) : Nat :=
  l.foldl (fun a bit => 2 * a + (if bit then 1 else 0)) 0

/-- `PackedNavBits::asUint64_t(startBit, numBits)`: bounds check
`startBit + numBits > bits.size()` (note: the *storage* size, not
`bits_used`), then MSB-first accumulation of `bits[startBit..startBit+numBits)`
into the low-order bits of a `uint64_t`. -/
def asUint64_t (b : PackedNavBits) (startBit numBits : Nat) : Except String Nat :=
  if startBit + numBits > b.bits.length then
    .error ("Requested bits not present.")
  else
    .ok (bitsToNat64 ((b.bits.drop startBit).take numBits))

/-- `PackedNavBits::asUnsignedLong(startBit, numBits, scale)` (contiguous
overload): extract raw bits, then `ulong *= scale` on a 64-bit unsigned. -/
def asUnsignedLong (b : PackedNavBits) (startBit numBits scale : Nat) :
    Except String Nat :=
  match asUint64_t b startBit numBits with
  | .error e => .error e
  | .ok temp => .ok (temp * scale % 2 ^ 64)

/-- The bit pattern written by the mask loop of `addUint64_t`: bit
`numBits-1-i` of `value` goes to offset `i` (MSB first). -/
def bitsOf (value numBits : Nat) : List Bool :=
  (List.range numBits).map (fun i => value.testBit (numBits - 1 - i))

/-- The write loop of `addUint64_t`: `bits[ndx] = (value & mask)` with `mask`
starting at bit `numBits-1` and shifting right, `ndx` ascending from
`bits_used`.  (`List.set` ignores out-of-range writes, which in C++ are
undefined; theorems assume the write is in bounds.) -/
def writeBits (l : List Bool) (ndx value numBits : Nat) : List Bool :=
  match numBits with
  | 0 => l
  | n + 1 => writeBits (l.set ndx (value.testBit n)) (ndx + 1) value n

/-- `PackedNavBits::addUint64_t(value, numBits)`: write `numBits` bits of
`value` MSB-first at `bits_used`, then `bits_used += numBits`.  The C++
routine performs no capacity check. -/
def addUint64_t (b : PackedNavBits) (value numBits : Nat) : PackedNavBits :=
  { b with bits := writeBits b.bits b.bits_used value numBits,
           bits_used := b.bits_used + numBits }

/-- The overflow bound `uint64_t test = pow(2.0, numBits) - 1;` of the
packing routines, evaluated in IEEE-754 binary64 arithmetic as the C++ does:
`pow(2.0, numBits)` is exact for `numBits ≤ 63` (a representable power of
two); the subtraction `2^numBits - 1.0` is then rounded to nearest-even,
which is exact for `numBits ≤ 53`, and rounds up to `2^numBits` for
`numBits ∈ [54, 63]` (at 54 the tie between `2^54 - 2` and `2^54` breaks to
the even `2^54`; above 54 the spacing exceeds 2 and `2^numBits` is strictly
nearest).  The final cast back to `uint64_t` is exact.  The model is stated
for `numBits ≤ 63`; at `numBits = 64` the C++ cast is undefined behaviour. -/
def rangeTest (numBits : Nat) : Nat :=
  if numBits ≤ 53 then 2 ^ numBits - 1 else 2 ^ numBits

/-- `PackedNavBits::addUnsignedLong(value, numBits, scale)`: divide by
`scale` (unsigned integer division), reject when the scaled value exceeds
`rangeTest numBits`, else append via `addUint64_t`. -/
def addUnsignedLong (b : PackedNavBits) (value numBits scale : Nat) :
    Except String PackedNavBits :=
  let out := value / scale
  if out > rangeTest numBits then
    .error ("Scaled value too large for specifed bit length")
  else
    .ok (addUint64_t b out numBits)

/-- Reinterpret a 64-bit pattern as a two's-complement `int64_t` (the `union`
used by `SignExtend`, `addLong`, and the split `asLong`). -/
def toSigned64 (p : Nat) : Int :=
  if p < 2 ^ 63 then (p : Int) else (p : Int) - 2 ^ 64

/-- Arithmetic right shift by `k` of a 64-bit pattern `p` (`int64_t`
`s >>= k`): logical shift, with the vacated high `k` bits filled with copies
of the sign bit (bit 63).  The fill `2^64 - 2^(64-k)` has exactly bits
`64-k .. 63` set, disjoint from `p >>> k < 2^(64-k)`, so `+` equals the
bitwise composition. -/
def sar64 (p k : Nat) : Nat :=
  p >>> k + (if p.testBit 63 then 2 ^ 64 - 2 ^ (64 - k) else 0)

/-- The bit pattern computed by `PackedNavBits::SignExtend(startBit,
numBits)`: extract raw bits, then `s <<= 64 - numBits; s >>= 64 - numBits`
with the left shift wrapping modulo 2^64 and the right shift arithmetic. -/
def SignExtendU (b : PackedNavBits) (startBit numBits : Nat) : Except String Nat :=
  match asUint64_t b startBit numBits with
  | .error e => .error e
  | .ok u => .ok (sar64 (u <<< (64 - numBits) % 2 ^ 64) (64 - numBits))

/-- `PackedNavBits::SignExtend` as the signed value of the resulting
64-bit pattern. -/
def SignExtend (b : PackedNavBits) (startBit numBits : Nat) : Except String Int :=
  match SignExtendU b startBit numBits with
  | .error e => .error e
  | .ok p => .ok (toSigned64 p)

/-- The 64-bit pattern of an `int` promoted to `int64_t` (two's
complement). -/
def intPat64 (z : Int) : Nat := (z % 2 ^ 64).toNat

/-- The accumulation loop of the split (parallel-array) `asLong` overload:
for each subsequent range, `temp = asUint64_t(startBits[i], numBits[i]);
s <<= numBits[i]; s |= temp;` on the 64-bit pattern of `s`. -/
def splitLoop (b : PackedNavBits) : List (Nat × Nat) → Nat → Except String Nat
  | [], p => .ok p
  | (si, ni) :: rest, p =>
    match asUint64_t b si ni with
    | .error e => .error e
    | .ok temp => splitLoop b rest (p <<< ni % 2 ^ 64 ||| temp)

/-- `PackedNavBits::asLong(startBits[], numBits[], len, scale)` (the
split-field overload): sign-extend the first range, shift-and-OR each
subsequent range, then `(long)(s * scale)` (64-bit wrapping multiply).  The
C++ reads `startBits[0]` unconditionally, so `len = 0` is out-of-bounds
undefined behaviour; the model returns an error for the empty list and no
theorem relies on that case. -/
def asLongSplit (b : PackedNavBits) (ranges : List (Nat × Nat)) (scale : Int) :
    Except String Int :=
  match ranges with
  | [] => .error ("empty range list")
  | (s0, n0) :: rest =>
    match SignExtendU b s0 n0 with
    | .error e => .error e
    | .ok p0 =>
      match splitLoop b rest p0 with
      | .error e => .error e
      | .ok pf => .ok (toSigned64 (pf * intPat64 scale % 2 ^ 64))

/-- The raw unsigned value of the bit range `[startBit, startBit+numBits)`,
as a pure specification-side read (used to state properties; `asUint64_t`
returns exactly this when in bounds, see the claim theorems). -/
def uvalOf (b : PackedNavBits) (startBit numBits : Nat) : Nat :=
  bitsToNat ((b.bits.drop startBit).take numBits)

/-- The two's-complement signed value of the bit range
`[startBit, startBit+numBits)` (specification-side). -/
def svalOf (b : PackedNavBits) (startBit numBits : Nat) : Int :=
  if (uvalOf b startBit numBits).testBit (numBits - 1) then
    (uvalOf b startBit numBits : Int) - 2 ^ numBits
  else
    (uvalOf b startBit numBits : Int)

/-- Split-field semantics written from the specification's words: "the first
range supplies the initial value (sign-extended ...); each subsequent
range's raw bits are concatenated onto the low end — i.e., the running value
is left-shifted by that range's width and OR'd with its raw bits", then the
result is multiplied by the scale.  Stated in exact integer arithmetic:
shifting a value left by `w` and OR-ing in `w` fresh low bits is
`v * 2^w + raw`. -/
def splitConcatSpec (b : PackedNavBits) (first : Nat × Nat)
    (rest : List (Nat × Nat)) (scale : Int) : Int :=
  scale * rest.foldl (fun v r => v * 2 ^ r.2 + (uvalOf b r.1 r.2 : Int))
    (svalOf b first.1 first.2)

/-- The character-validity test of `PackedNavBits::addString`: uppercase
letters, `'0'..':'`, space, `'"'`, `'\''`, `'+'`, `'-'..'/'`, or the byte
0xF8.  Characters are the `unsigned char` byte values. -/
def validChar (c : Nat) : Bool :=
  (65 ≤ c && c ≤ 90) || (48 ≤ c && c ≤ 58) || c == 32 ||
  c == 34 || c == 39 || c == 43 || (45 ≤ c && c ≤ 47) || c == 248

/-- The copy loop of `addString`: validate each character and append its 8
bits; throw on the first invalid character (characters already appended
stay in the buffer, but the C++ exception abandons the object, so the model
only reports the error). -/
def addChars (b : PackedNavBits) : List Nat → Except String PackedNavBits
  | [] => .ok b
  | c :: cs =>
    if validChar c then addChars (addUint64_t b c 8) cs
    else .error ("Invalid character in text string.")

/-- The padding loop of `addString`: append `n` ASCII spaces (0x20). -/
def addPad (b : PackedNavBits) : Nat → PackedNavBits
  | 0 => b
  | n + 1 => addPad (addUint64_t b 32 8) n

/-- `PackedNavBits::addString(String, numChars)`: copy
`min(numChars, String.length())` characters (validating each), then pad
with `numChars - String.length()` spaces when the input is shorter. -/
def addString (b : PackedNavBits) (s : List Nat) (numChars : Nat) :
    Except String PackedNavBits :=
  let numToCopy := min numChars s.length
  let numPadBlanks := numChars - s.length
  match addChars b (s.take numToCopy) with
  | .error e => .error e
  | .ok b2 => .ok (addPad b2 numPadBlanks)

/-- `std::vector::resize(n)`: keep the first `min(old, n)` cells, fill any
new cells with `false`. -/
def listResize (l : List Bool) (n : Nat) : List Bool :=
  l.take n ++ List.replicate (n - l.length) false

/-- The copy loop of `addPackedNavBits`:
`bits[i + old_bits_used] = right.bits[i]` for `i < n` (out-of-range reads —
undefined in C++ — are modelled by `getD _ false`; theorems assume
`n ≤ src.length`). -/
def copyInto (dst : List Bool) (ofs : Nat) (src : List Bool) : Nat → List Bool
  | 0 => dst
  | n + 1 => (copyInto dst ofs src n).set (ofs + n) (src.getD n false)

/-- `PackedNavBits::addPackedNavBits(right)`: `bits_used += right.bits_used`,
`bits.resize(bits_used)`, then copy `right`'s first `right.bits_used` bits
after the old used region.  The C++ performs no capacity check and never
throws. -/
def addPackedNavBits (b r : PackedNavBits) : PackedNavBits :=
  let newUsed := b.bits_used + r.bits_used
  { b with bits_used := newUsed,
           bits := copyInto (listResize b.bits newUsed) b.bits_used r.bits
                     r.bits_used }

/-- The scan loop of `PackedNavBits::operator<` on two equal-size bit
vectors: the first index where `self` is `false` and `right` is `true`
makes `self` less; the first index with the bits the other way makes it
greater; exhaustion yields `false`. -/
def ltScan : List Bool → List Bool → Bool
  | [], _ => false
  | _ :: _, [] => false
  | a :: as', bb :: bs =>
    if a = false ∧ bb = true then true
    else if a = true ∧ bb = false then false
    else ltScan as' bs

/-- `PackedNavBits::operator<`: if the two objects' *storage* sizes
(`bits.size()`, not `bits_used`) differ, the smaller storage is less;
otherwise scan the whole storage bit-by-bit. -/
def pnbLt (a b : PackedNavBits) : Bool :=
  if a.bits.length ≠ b.bits.length then decide (a.bits.length < b.bits.length)
  else ltScan a.bits b.bits

/-- Lexicographic "first difference" order, written from the
specification's words: some position `i` (scanning from bit 0) has `self`
`false` and `other` `true`, every earlier position being equal. -/
def lexLtSpec (as bs : List Bool) : Prop :=
  ∃ i, i < as.length ∧ (∀ j, j < i → as.getD j false = bs.getD j false) ∧
    as.getD i false = false ∧ bs.getD i false = true

/-- `PackedNavBits::reset_num_bits(new_bits_used)`: unconditionally set the
`bits_used` counter; nothing else is touched and no validation occurs. -/
def reset_num_bits (b : PackedNavBits) (new_bits_used : Nat) : PackedNavBits :=
  { b with bits_used := new_bits_used }

/-- `PackedNavBits::trimsize()`: `bits.resize(bits_used)`. -/
def trimsize (b : PackedNavBits) : PackedNavBits :=
  { b with bits := listResize b.bits b.bits_used }

/-- The copy constructor `PackedNavBits::PackedNavBits(const PackedNavBits&)`
(also reached through `clone()`): copy every metadata member and
`bits_used`, size the new storage to exactly `bits_used` cells, and copy
`right.bits[i]` for `i < bits_used`. -/
def copyPNB (b : PackedNavBits) : PackedNavBits :=
  { b with bits := (List.range b.bits_used).map (fun i => b.bits.getD i false) }

/-- Modelled from the spec: the metadata-match flag values (`mmTIME` etc.)
are declared in the PackedNavBits header, which is not part of the observed
source; the spec (§4.5) says the flags select which of time, satellite,
observation id, source label, and nav type to compare.  Distinct one-bit
masks are used; the particular values are irrelevant to every property
proved here. -/
def mmTIME : Nat := 1

/-- Modelled from the spec: satellite-id flag (see `mmTIME`). -/
def mmSAT : Nat := 2

/-- Modelled from the spec: observation-id flag (see `mmTIME`). -/
def mmOBS : Nat := 4

/-- Modelled from the spec: receiver/source-label flag (see `mmTIME`). -/
def mmRX : Nat := 8

/-- Modelled from the spec: nav-type flag (see `mmTIME`). -/
def mmNAV : Nat := 16

/-- Modelled from the spec: the all-flags value used by `equals`. -/
def mmALL : Nat := 31

/-- `PackedNavBits::matchMetaData(right, flagBits)`: transmit-time match
with an absolute tolerance of 0.001 seconds, exact equality for the other
selected metadata fields. -/
def matchMetaData (a b : PackedNavBits) (flagBits : Nat) : Bool :=
  (flagBits &&& mmTIME == 0 || decide (|b.transmitTime - a.transmitTime| ≤ 1 / 1000)) &&
  (flagBits &&& mmSAT == 0 || a.satSys == b.satSys) &&
  (flagBits &&& mmOBS == 0 || a.obsID == b.obsID) &&
  (flagBits &&& mmRX == 0 || a.rxID == b.rxID) &&
  (flagBits &&& mmNAV == 0 || a.navID == b.navID)

/-- `PackedNavBits::matchBits(right, startBit, endBit)`: storage sizes must
be equal (else `false`), out-of-range `startBit`/`endBit` (including the
`-1` sentinel) are clamped into `[0, size-1]`, then the clamped range is
compared bit-for-bit. -/
def matchBits (a b : PackedNavBits) (startBitA endBitA : Int) : Bool :=
  if a.bits.length ≠ b.bits.length then false
  else
    let size : Int := a.bits.length
    let endB : Int := if endBitA = -1 ∨ size ≤ endBitA then size - 1 else endBitA
    let startB : Int := if startBitA < 0 then 0
                        else if size ≤ startBitA then size - 1 else startBitA
    (List.range a.bits.length).all fun i =>
      !(decide (startB ≤ (i : Int)) && decide ((i : Int) ≤ endB)) ||
        (a.bits.getD i false == b.bits.getD i false)

/-- `PackedNavBits::match(right, startBit, endBit, flagBits)`: metadata
match then bit match. -/
def pnbMatch (a b : PackedNavBits) (startBit endBit : Int) (flagBits : Nat) : Bool :=
  matchMetaData a b flagBits && matchBits a b startBit endBit

/-- `PackedNavBits::operator==`, i.e. `match(right)` with its default
arguments.  Modelled from the spec for the defaults (the header declaring
them is not in the observed source): §4.5 states `equals(other)` is
`matchMetadata(other, ALL_FLAGS)` and `matchBits(other, 0, bitsUsed−1)`. -/
def beqPNB (a b : PackedNavBits) : Bool :=
  pnbMatch a b 0 ((a.bits_used : Int) - 1) mmALL

/-- The "white space" set of `rawBitInput`: space, tab, comma. -/
def isWSChar (c : Char) : Bool := c == ' ' || c == '\t' || c == ','

/-- `std::string::find_first_of` / `find_first_not_of` with a start
position: the least index `≥ start` whose character satisfies `p`
(`none` = `npos`). -/
def findIdxFrom (p : Char → Bool) (l : List Char) (start : Nat) : Option Nat :=
  match (l.drop start).findIdx? p with
  | some j => some (start + j)
  | none => none

/-- Helper for `asInt`: accumulate leading decimal digits. -/
def asIntDigits : List Char → Nat → Nat
  | [], a => a
  | c :: cs, a => if c.isDigit then asIntDigits cs (10 * a + (c.toNat - 48)) else a

/-- Modelled from the spec: `StringUtils::asInt` (declared in a StringUtils
header not part of the observed source) converting the bit-count token;
§4.6 says the first token is "the decimal bit count N", so the model reads
the token's leading decimal digits. -/
def asInt (l : List Char) : Nat := asIntDigits l 0

/-- Value of one hexadecimal digit character (0 for other characters). -/
def hexDigitVal (c : Char) : Nat :=
  if '0' ≤ c ∧ c ≤ '9' then c.toNat - 48
  else if 'A' ≤ c ∧ c ≤ 'F' then c.toNat - 55
  else if 'a' ≤ c ∧ c ≤ 'f' then c.toNat - 87
  else 0

/-- Helper for `x2uint`: accumulate hexadecimal digits. -/
def hexAccum : List Char → Nat → Nat
  | [], a => a
  | c :: cs, a => hexAccum cs (16 * a + hexDigitVal c)

/-- Drop a leading `0x` / `0X` marker. -/
def dropHexMark : List Char → List Char
  | '0' :: 'x' :: rest => rest
  | '0' :: 'X' :: rest => rest
  | l => l

/-- Modelled from the spec: `StringUtils::x2uint` (declared in a StringUtils
header not part of the observed source) converting one hex token; §4.6 says
each token is `0x` + 8 hex digits denoting a 32-bit word, so the model
strips the marker and reads the digits as base 16. -/
def x2uint (l : List Char) : Nat := hexAccum (dropHexMark l) 0

/-- `substr` extraction of one hex token: from `begin` to the next white
space (`end`), or the rest of the string when `end` is `npos`. -/
def hexWordAt (ins : List Char) (bg : Nat) (end2 : Option Nat) : List Char :=
  match end2 with
  | some e => (ins.drop bg).take (e - bg)
  | none => ins.drop bg

/-- The word loop of `rawBitInput`.  Arguments: remaining word count, the
`end` position left by the previous `find_first_of` (`none` = `npos`; the
C++ then computes `end+1` on a `size_t`, wrapping `npos+1` to 0, which the
model reproduces), the buffer, `bitsRead`, and `bitsExpected`.  Each word
must start after a separator, begin with `0x`/`0X`, and is appended with
`addUnsignedLong(dataWord, 32, 1)`; `bitsRead` grows by
`min(bitsExpected - bitsRead, 32)`. -/
def wordLoop (ins : List Char) :
    Nat → Option Nat → PackedNavBits → Nat → Nat →
    Except String (PackedNavBits × Nat)
  | 0, _, b, bitsRead, _ => .ok (b, bitsRead)
  | n + 1, prevEnd, b, bitsRead, bitsExpected =>
    let start := match prevEnd with
                 | some e => e + 1
                 | none => 0
    match findIdxFrom (fun c => !isWSChar c) ins start with
    | none => .error ("Did not find expected number of hex words.")
    | some bg =>
      let end2 := findIdxFrom isWSChar ins bg
      let hexWord := hexWordAt ins bg end2
      if hexWord.take 2 ≠ ['0', 'x'] ∧ hexWord.take 2 ≠ ['0', 'X'] then
        .error ("Expected hex data did not being with 0x")
      else
        let dataWord := x2uint hexWord
        let numBitsToAdd := min (bitsExpected - bitsRead) 32
        match addUnsignedLong b dataWord 32 1 with
        | .error e => .error e
        | .ok b2 => wordLoop ins n end2 b2 (bitsRead + numBitsToAdd) bitsExpected

/-- `PackedNavBits::rawBitInput(inString)`: find the bit-count token (the
C++ takes `substr(begin, end)` — `end` *characters* from `begin`, which
equals the token exactly when no leading white space precedes it), compute
`((bitsExpected-1)/32) + 1` expected words, run the word loop, then set
`bits_used = bitsRead` and `trimsize()`. -/
def rawBitInput (b : PackedNavBits) (ins : List Char) :
    Except String PackedNavBits :=
  match findIdxFrom (fun c => !isWSChar c) ins 0 with
  | none => .error ("Did not find #bits at beginning of input string.")
  | some bg =>
    match findIdxFrom isWSChar ins bg with
    | none => .error ("Did not find space after #bits at beginning of input string.")
    | some e1 =>
      let textBitCount := (ins.drop bg).take e1
      let bitsExpected := asInt textBitCount
      let numWordsExpected := (bitsExpected - 1) / 32 + 1
      match wordLoop ins numWordsExpected (some e1) b 0 bitsExpected with
      | .error e => .error e
      | .ok (b2, bitsRead) =>
        .ok { b2 with bits_used := bitsRead,
                      bits := listResize b2.bits bitsRead }

/-- Canonical rendering of a token list: tokens separated by single
spaces (used to state the import theorem over well-formed input texts). -/
def renderWords : List (List Char) → List Char
  | [] => []
  | [w] => w
  | w :: ws => w ++ ' ' :: renderWords ws

/-- Example buffer for the ordering counterexample: storage `[true, false]`,
one used bit (the state is reachable, e.g. via `reset_num_bits` after
`trimsize`). -/
def pnbA : PackedNavBits := { freshPNB with bits := [true, false], bits_used := 1 }

/-- Example buffer for the ordering counterexample: storage
`[false, false]`, two used bits. -/
def pnbB : PackedNavBits := { freshPNB with bits := [false, false], bits_used := 2 }

/-- Example buffer for the split-field decode: bits `100011`, i.e. the
4-bit field at 0 holds `1000` (raw 8, signed −8) and the 2-bit field at 4
holds `11` (raw 3). -/
def exSplit : PackedNavBits :=
  { freshPNB with bits := [true, false, false, false, true, true], bits_used := 6 }

end PackedNavBits

open PackedNavBits

/-! ### Supporting lemmas: MSB-first bit folds -/

theorem bitsToNat_foldl (l : List Bool) (a : Nat) :
    l.foldl (fun a bit => 2 * a + (if bit then 1 else 0)) a
      = a * 2 ^ l.length + bitsToNat l := by
  induction l generalizing a with
  | nil => simp [bitsToNat]
  | cons x t ih =>
    have hx : bitsToNat (x :: t) = (x :: t).foldl
        (fun a bit => 2 * a + (if bit then 1 else 0)) 0 := rfl
    simp only [List.foldl_cons] at hx ⊢
    rw [ih, hx, ih, List.length_cons, pow_succ]
    ring

theorem bitsToNat_cons (x : Bool) (t : List Bool) :
    bitsToNat (x :: t) = (if x then 1 else 0) * 2 ^ t.length + bitsToNat t := by
  have hx : bitsToNat (x :: t) = t.foldl
      (fun a bit => 2 * a + (if bit then 1 else 0)) (2 * 0 + (if x then 1 else 0)) := rfl
  rw [hx, bitsToNat_foldl]
  ring_nf

theorem bitsToNat_lt (l : List Bool) : bitsToNat l < 2 ^ l.length := by
  induction l with
  | nil => simp [bitsToNat]
  | cons x t ih =>
    rw [bitsToNat_cons, List.length_cons, pow_succ]
    have hx : (if x then 1 else 0) ≤ 1 := by split <;> simp
    have h1 : (if x then 1 else 0) * 2 ^ t.length ≤ 1 * 2 ^ t.length :=
      Nat.mul_le_mul_right _ hx
    omega

theorem bitsToNat64_foldl (l : List Bool) : ∀ a : Nat, l.length ≤ 64 →
    a < 2 ^ (64 - l.length) →
    l.foldl (fun a bit => (2 * a + (if bit then 1 else 0)) % 2 ^ 64) a
      = l.foldl (fun a bit => 2 * a + (if bit then 1 else 0)) a := by
  induction l with
  | nil => intro a _ _; rfl
  | cons x t ih =>
    intro a hlen ha
    simp only [List.length_cons] at hlen ha
    simp only [List.foldl_cons]
    have hx : (if x then 1 else 0) ≤ 1 := by split <;> simp
    have hsplit : 64 - t.length = (64 - (t.length + 1)) + 1 := by omega
    have hstep : 2 * a + (if x then 1 else 0) < 2 ^ (64 - t.length) := by
      rw [hsplit, pow_succ]; omega
    have hle : (2 : Nat) ^ (64 - t.length) ≤ 2 ^ 64 :=
      Nat.pow_le_pow_right (by norm_num) (by omega)
    rw [Nat.mod_eq_of_lt (lt_of_lt_of_le hstep hle)]
    exact ih _ (by omega) hstep

theorem bitsToNat64_eq (l : List Bool) (h : l.length ≤ 64) :
    bitsToNat64 l = bitsToNat l :=
  bitsToNat64_foldl l 0 h (Nat.two_pow_pos _)

theorem bitsToNat_concat (l : List Bool) (x : Bool) :
    bitsToNat (l ++ [x]) = 2 * bitsToNat l + (if x then 1 else 0) := by
  simp [bitsToNat, List.foldl_append]

theorem testBit_bitsToNat (l : List Bool) : ∀ j, j < l.length →
    (bitsToNat l).testBit j = l.getD (l.length - 1 - j) false := by
  induction l using List.reverseRecOn with
  | nil => intro j hj; simp at hj
  | append_singleton t x ih =>
    intro j hj
    rw [bitsToNat_concat]
    have hx : (if x then 1 else 0) ≤ 1 := by split <;> simp
    cases j with
    | zero =>
      rw [Nat.testBit_zero]
      have hmod : (2 * bitsToNat t + (if x then 1 else 0)) % 2
          = (if x then 1 else 0) := by omega
      have hidx : (t ++ [x]).length - 1 - 0 = t.length := by simp
      rw [hmod, hidx]
      have hget : (t ++ [x]).getD t.length false = x := by
        simp [List.getD_eq_getElem?_getD, List.getElem?_append_right (le_refl t.length)]
      rw [hget]
      split <;> simp_all
    | succ m =>
      rw [Nat.testBit_succ]
      have hdiv : (2 * bitsToNat t + (if x then 1 else 0)) / 2 = bitsToNat t := by omega
      rw [hdiv]
      have hm : m < t.length := by
        simp only [List.length_append, List.length_singleton] at hj; omega
      rw [ih m hm]
      have hidx : (t ++ [x]).length - 1 - (m + 1) = t.length - 1 - m := by
        simp; omega
      rw [hidx]
      have hlt : t.length - 1 - m < t.length := by omega
      simp [List.getD_eq_getElem?_getD, List.getElem?_append_left hlt]

/-! ### Supporting lemmas: the write loop -/

theorem bitsOf_length (v n : Nat) : (bitsOf v n).length = n := by
  simp [bitsOf]

theorem bitsOf_succ (v n : Nat) : bitsOf v (n + 1) = v.testBit n :: bitsOf v n := by
  simp only [bitsOf, List.range_succ_eq_map, List.map_cons, List.map_map]
  rw [List.cons.injEq]
  refine ⟨by congr 1, ?_⟩
  apply List.map_congr_left
  intro i _
  simp only [Function.comp_apply]
  congr 1
  omega

theorem bitsToNat_bitsOf (v : Nat) : ∀ n, bitsToNat (bitsOf v n) = v % 2 ^ n := by
  intro n
  induction n with
  | zero => simp [bitsOf, bitsToNat, Nat.mod_one]
  | succ m ih =>
    rw [bitsOf_succ, bitsToNat_cons, bitsOf_length, ih, pow_succ, Nat.mod_mul,
      Nat.testBit_to_div_mod]
    rcases Nat.mod_two_eq_zero_or_one (v / 2 ^ m) with h0 | h0 <;> simp [h0]
    omega

theorem set_decomp {α : Type} (l : List α) (n : Nat) (a : α) (h : n < l.length) :
    l.set n a = l.take n ++ a :: l.drop (n + 1) := by
  induction l generalizing n with
  | nil => simp at h
  | cons x t ih =>
    cases n with
    | zero => simp
    | succ m =>
      simp only [List.set_cons_succ, List.take_succ_cons, List.drop_succ_cons,
        List.cons_append, List.cons.injEq, true_and]
      exact ih m (by simpa using h)

theorem writeBits_spec (v : Nat) : ∀ (n : Nat) (l : List Bool) (ndx : Nat),
    ndx + n ≤ l.length →
    writeBits l ndx v n = l.take ndx ++ bitsOf v n ++ l.drop (ndx + n) := by
  intro n
  induction n with
  | zero =>
    intro l ndx h
    simp [writeBits, bitsOf]
  | succ m ih =>
    intro l ndx h
    have hndx : ndx < l.length := by omega
    rw [writeBits]
    rw [ih (l.set ndx (v.testBit m)) (ndx + 1) (by simp; omega)]
    rw [set_decomp l ndx _ hndx]
    have hassoc : l.take ndx ++ v.testBit m :: l.drop (ndx + 1)
        = (l.take ndx ++ [v.testBit m]) ++ l.drop (ndx + 1) := by simp
    have hlen1 : (l.take ndx ++ [v.testBit m]).length = ndx + 1 := by
      simp [List.length_take]; omega
    have h1 : (l.take ndx ++ v.testBit m :: l.drop (ndx + 1)).take (ndx + 1)
        = l.take ndx ++ [v.testBit m] := by
      rw [hassoc]; exact List.take_left' hlen1
    have h2 : (l.take ndx ++ v.testBit m :: l.drop (ndx + 1)).drop (ndx + 1 + m)
        = l.drop (ndx + (m + 1)) := by
      rw [hassoc]
      have : ndx + 1 + m = (l.take ndx ++ [v.testBit m]).length + m := by
        rw [hlen1]
      rw [this, List.drop_append, List.drop_drop]
      congr 1
      omega
    rw [h1, h2, bitsOf_succ]
    simp

theorem writeBits_length (v : Nat) : ∀ (n : Nat) (l : List Bool) (ndx : Nat),
    (writeBits l ndx v n).length = l.length := by
  intro n
  induction n with
  | zero => intro l ndx; rfl
  | succ m ih => intro l ndx; rw [writeBits, ih]; simp

/-! ### Supporting lemmas: extraction -/

theorem sliceLength (b : PackedNavBits) (s n : Nat) (h : s + n ≤ b.bits.length) :
    ((b.bits.drop s).take n).length = n := by
  simp [List.length_take, List.length_drop]
  omega

theorem asUint64_t_ok (b : PackedNavBits) (s n : Nat) (hb : s + n ≤ b.bits.length)
    (h64 : n ≤ 64) : asUint64_t b s n = .ok (uvalOf b s n) := by
  unfold asUint64_t uvalOf
  rw [if_neg (by omega)]
  congr 1
  rw [bitsToNat64_eq]
  rw [sliceLength b s n hb]
  exact h64

theorem asUint64_t_isOk_iff (b : PackedNavBits) (s n : Nat) :
    (asUint64_t b s n).isOk = true ↔ s + n ≤ b.bits.length := by
  unfold asUint64_t
  by_cases h : s + n > b.bits.length
  · rw [if_pos h]
    simp [Except.isOk, Except.toBool]
    omega
  · rw [if_neg h]
    simp [Except.isOk, Except.toBool]
    omega

theorem uvalOf_lt (b : PackedNavBits) (s n : Nat) (hb : s + n ≤ b.bits.length) :
    uvalOf b s n < 2 ^ n := by
  unfold uvalOf
  have := bitsToNat_lt ((b.bits.drop s).take n)
  rw [sliceLength b s n hb] at this
  exact this

theorem addUint64_t_bits (b : PackedNavBits) (v n : Nat)
    (h : b.bits_used + n ≤ b.bits.length) :
    (addUint64_t b v n).bits
      = b.bits.take b.bits_used ++ bitsOf v n ++ b.bits.drop (b.bits_used + n) :=
  writeBits_spec v n b.bits b.bits_used h

theorem addUint64_t_used (b : PackedNavBits) (v n : Nat) :
    (addUint64_t b v n).bits_used = b.bits_used + n := rfl

theorem addUint64_t_length (b : PackedNavBits) (v n : Nat) :
    (addUint64_t b v n).bits.length = b.bits.length :=
  writeBits_length v n b.bits b.bits_used

/-- Reading back a just-written region: if the storage decomposes as
`pre ++ w ++ post` with `w` at offset `s` and at most 64 bits long,
`asUint64_t` returns the MSB-first value of `w`. -/
theorem asUint64_t_region (b : PackedNavBits) (s n : Nat) (pre w post : List Bool)
    (hb : b.bits = pre ++ w ++ post) (hs : pre.length = s) (hw : w.length = n)
    (h64 : n ≤ 64) :
    asUint64_t b s n = .ok (bitsToNat w) := by
  unfold asUint64_t
  have hlen : b.bits.length = s + n + post.length := by
    rw [hb]; simp [hs, hw]; omega
  rw [if_neg (by omega)]
  congr 1
  rw [hb, List.append_assoc, List.drop_left' hs, List.take_left' hw]
  rw [bitsToNat64_eq w (by omega)]

/-! ### Supporting lemmas: two's-complement patterns -/

theorem toSigned64_lb (p : Nat) (hp : p < 2 ^ 64) : -(2 : Int) ^ 63 ≤ toSigned64 p := by
  have hp2 : (p : Int) < 2 ^ 64 := by exact_mod_cast hp
  have h0 : (0 : Int) ≤ (p : Int) := Int.ofNat_nonneg p
  have e1 : (2 : Int) ^ 63 = 9223372036854775808 := by norm_num
  have e2 : (2 : Int) ^ 64 = 18446744073709551616 := by norm_num
  unfold toSigned64
  rw [e1] at *
  rw [e2] at *
  split
  · omega
  · omega

theorem toSigned64_ub (p : Nat) (hp : p < 2 ^ 64) : toSigned64 p < 2 ^ 63 := by
  have hp2 : (p : Int) < 2 ^ 64 := by exact_mod_cast hp
  have h0 : (0 : Int) ≤ (p : Int) := Int.ofNat_nonneg p
  have e1 : (2 : Int) ^ 63 = 9223372036854775808 := by norm_num
  have e2 : (2 : Int) ^ 64 = 18446744073709551616 := by norm_num
  unfold toSigned64
  rw [e1] at *
  rw [e2] at *
  split
  · rename_i h
    exact_mod_cast (by omega : (p : Int) < 9223372036854775808)
  · rename_i h
    have : ¬ ((p : Int) < 9223372036854775808) := by
      intro hc
      exact h (by exact_mod_cast hc)
    omega

theorem toSigned64_of_lt (p : Nat) (h : p < 2 ^ 63) : toSigned64 p = (p : Int) := by
  unfold toSigned64
  rw [if_pos h]

theorem toSigned64_of_ge (p : Nat) (h : ¬ p < 2 ^ 63) :
    toSigned64 p = (p : Int) - 2 ^ 64 := by
  unfold toSigned64
  rw [if_neg h]

theorem toSigned64_dvd (p : Nat) : (2 ^ 64 : Int) ∣ ((p : Int) - toSigned64 p) := by
  unfold toSigned64
  split
  · simp
  · have : (p : Int) - ((p : Int) - 2 ^ 64) = 2 ^ 64 := by ring
    rw [this]

theorem toSigned64_eq_of (p : Nat) (w : Int) (hp : p < 2 ^ 64)
    (hd : (2 ^ 64 : Int) ∣ ((p : Int) - w)) (h1 : -(2 : Int) ^ 63 ≤ w)
    (h2 : w < 2 ^ 63) : toSigned64 p = w := by
  have hdd : (2 ^ 64 : Int) ∣ (toSigned64 p - w) := by
    have e : toSigned64 p - w = ((p : Int) - w) - ((p : Int) - toSigned64 p) := by ring
    rw [e]
    exact dvd_sub hd (toSigned64_dvd p)
  have hb1 := toSigned64_lb p hp
  have hb2 := toSigned64_ub p hp
  have habs : |toSigned64 p - w| < 2 ^ 64 := by
    rw [abs_lt]
    have e3 : (2 : Int) ^ 64 = 2 ^ 63 + 2 ^ 63 := by norm_num
    constructor <;> linarith
  have := Int.eq_zero_of_abs_lt_dvd hdd habs
  omega

theorem lor_disjoint {a t n : Nat} (ha : a % 2 ^ n = 0) (ht : t < 2 ^ n) :
    a ||| t = a + t := by
  have hq : a = 2 ^ n * (a / 2 ^ n) := by
    have := Nat.div_add_mod a (2 ^ n)
    omega
  apply Nat.eq_of_testBit_eq
  intro j
  rw [Nat.testBit_lor]
  have hta : ∀ k, a.testBit k
      = if k < n then false else (a / 2 ^ n).testBit (k - n) := by
    intro k
    conv_lhs => rw [hq]
    rw [Nat.testBit_mul_pow_two]
    by_cases hk : k < n
    · rw [if_pos hk]
      simp [Nat.not_le.mpr hk]
    · rw [if_neg hk]
      simp [Nat.not_lt.mp hk]
  have hsum : (a + t).testBit j
      = if j < n then t.testBit j else (a / 2 ^ n).testBit (j - n) := by
    conv_lhs => rw [hq]
    exact Nat.testBit_mul_pow_two_add (a / 2 ^ n) ht j
  rw [hsum, hta j]
  by_cases hj : j < n
  · simp [hj]
  · have htb : t.testBit j = false := by
      apply Nat.testBit_lt_two_pow
      exact lt_of_lt_of_le ht (Nat.pow_le_pow_right (by norm_num) (by omega))
    simp [hj, htb]

/-! ### Supporting lemmas: sign extension -/

theorem testBit_true_ge {u n : Nat} (h : u.testBit n = true) : 2 ^ n ≤ u := by
  by_contra hlt
  push_neg at hlt
  rw [Nat.testBit_lt_two_pow hlt] at h
  exact Bool.false_ne_true h

theorem testBit_false_lt {u n : Nat} (hu : u < 2 ^ (n + 1))
    (h : u.testBit n = false) : u < 2 ^ n := by
  have hself : u % 2 ^ (n + 1) = u := Nat.mod_eq_of_lt hu
  have hm : u % (2 ^ n * 2) = u % 2 ^ n + 2 ^ n * (u / 2 ^ n % 2) := Nat.mod_mul
  rw [Nat.testBit_to_div_mod] at h
  have h2 : u / 2 ^ n % 2 = 0 := by
    rcases Nat.mod_two_eq_zero_or_one (u / 2 ^ n) with h0 | h0
    · exact h0
    · rw [h0] at h; simp at h
  rw [← pow_succ] at hm
  rw [hself, h2] at hm
  have := @Nat.mod_lt u (2 ^ n) (Nat.two_pow_pos n)
  omega

theorem SignExtendU_rw (b : PackedNavBits) (s n u : Nat)
    (h : asUint64_t b s n = .ok u) :
    SignExtendU b s n = .ok (sar64 (u <<< (64 - n) % 2 ^ 64) (64 - n)) := by
  unfold SignExtendU
  rw [h]

theorem SignExtend_rw (b : PackedNavBits) (s n : Nat) (p : Nat)
    (h : SignExtendU b s n = .ok p) :
    SignExtend b s n = .ok (toSigned64 p) := by
  unfold SignExtend
  rw [h]

theorem SignExtendU_ok (b : PackedNavBits) (s n : Nat) (h1 : 1 ≤ n) (h2 : n ≤ 64)
    (hb : s + n ≤ b.bits.length) :
    SignExtendU b s n =
      .ok (if (uvalOf b s n).testBit (n - 1) then uvalOf b s n + (2 ^ 64 - 2 ^ n)
           else uvalOf b s n) := by
  rw [SignExtendU_rw b s n (uvalOf b s n) (asUint64_t_ok b s n hb h2)]
  have hult : uvalOf b s n < 2 ^ n := uvalOf_lt b s n hb
  set u := uvalOf b s n with hu
  congr 1
  have hpow : (2 : Nat) ^ n * 2 ^ (64 - n) = 2 ^ 64 := by
    rw [← pow_add]; congr 1; omega
  have hsh : u <<< (64 - n) % 2 ^ 64 = u * 2 ^ (64 - n) := by
    rw [Nat.shiftLeft_eq, Nat.mod_eq_of_lt]
    calc u * 2 ^ (64 - n) < 2 ^ n * 2 ^ (64 - n) :=
          (Nat.mul_lt_mul_right (Nat.two_pow_pos _)).mpr hult
      _ = 2 ^ 64 := hpow
  rw [hsh]
  unfold sar64
  have hshr : (u * 2 ^ (64 - n)) >>> (64 - n) = u := by
    rw [Nat.shiftRight_eq_div_pow]
    exact Nat.mul_div_cancel u (Nat.two_pow_pos _)
  have htb : (u * 2 ^ (64 - n)).testBit 63 = u.testBit (n - 1) := by
    rw [Nat.mul_comm, Nat.testBit_mul_pow_two]
    have hge : 63 ≥ 64 - n := by omega
    simp only [ge_iff_le, hge, decide_True, Bool.true_and]
    congr 1
    omega
  rw [hshr, htb]
  have h64n : 64 - (64 - n) = n := by omega
  rw [h64n]
  split <;> simp

theorem SignExtend_ok (b : PackedNavBits) (s n : Nat) (h1 : 1 ≤ n) (h2 : n ≤ 64)
    (hb : s + n ≤ b.bits.length) :
    SignExtend b s n = .ok (svalOf b s n) := by
  rw [SignExtend_rw b s n _ (SignExtendU_ok b s n h1 h2 hb)]
  have hult : uvalOf b s n < 2 ^ n := uvalOf_lt b s n hb
  have hpow : (2 : Nat) ^ n ≤ 2 ^ 64 := Nat.pow_le_pow_right (by norm_num) h2
  unfold svalOf
  set u := uvalOf b s n with hu
  congr 1
  have h2n : (2 : Nat) ^ n = 2 * 2 ^ (n - 1) := by
    rw [← pow_succ']; congr 1; omega
  have hp63 : (2 : Nat) ^ (n - 1) ≤ 2 ^ 63 :=
    Nat.pow_le_pow_right (by norm_num) (by omega)
  by_cases htb : u.testBit (n - 1)
  · rw [if_pos htb, if_pos htb]
    have hge : 2 ^ (n - 1) ≤ u := testBit_true_ge htb
    have hnlt : ¬ (u + (2 ^ 64 - 2 ^ n) < 2 ^ 63) := by
      rw [h2n]
      rw [h2n] at hpow
      omega
    rw [toSigned64_of_ge _ hnlt]
    have hgn : ((2 ^ n : Nat) : Int) = (2 : Int) ^ n := by push_cast; ring
    omega
  · rw [if_neg htb, if_neg htb]
    have hlt : u < 2 ^ (n - 1) := by
      apply testBit_false_lt _ (by simpa using htb)
      have he : n - 1 + 1 = n := by omega
      rw [he]
      exact hult
    exact toSigned64_of_lt u (by omega)

/-! ### Supporting lemmas: the split-field loop -/

theorem splitLoop_cons_rw (b : PackedNavBits) (si ni : Nat) (rest : List (Nat × Nat))
    (p t : Nat) (h : asUint64_t b si ni = .ok t) :
    splitLoop b ((si, ni) :: rest) p = splitLoop b rest (p <<< ni % 2 ^ 64 ||| t) := by
  show (match asUint64_t b si ni with
        | .error e => .error e
        | .ok temp => splitLoop b rest (p <<< ni % 2 ^ 64 ||| temp))
      = splitLoop b rest (p <<< ni % 2 ^ 64 ||| t)
  rw [h]

theorem emod_sub_self_dvd (x n : Int) : n ∣ (x % n - x) := by
  refine ⟨-(x / n), ?_⟩
  rw [Int.emod_def]
  ring

/-- Invariant of the shift-and-OR loop: if the 64-bit pattern `p` represents
the exact integer `v` (congruent modulo 2^64, with `v` in the `m`-bit
two's-complement range), the loop produces the pattern of the exact
concatenation fold, which stays in the `m + Σ widths` two's-complement
range. -/
theorem splitLoop_ok (b : PackedNavBits) :
    ∀ (rest : List (Nat × Nat)) (p : Nat) (v : Int) (m : Nat),
    (∀ r ∈ rest, r.1 + r.2 ≤ b.bits.length) →
    1 ≤ m → m + (rest.map Prod.snd).sum ≤ 64 →
    p < 2 ^ 64 → (2 ^ 64 : Int) ∣ ((p : Int) - v) →
    -(2 : Int) ^ (m - 1) ≤ v → v < 2 ^ (m - 1) →
    ∃ pf : Nat, splitLoop b rest p = .ok pf ∧ pf < 2 ^ 64 ∧
      (2 ^ 64 : Int) ∣ ((pf : Int) -
        rest.foldl (fun w r => w * 2 ^ r.2 + (uvalOf b r.1 r.2 : Int)) v) ∧
      -(2 : Int) ^ (m + (rest.map Prod.snd).sum - 1)
          ≤ rest.foldl (fun w r => w * 2 ^ r.2 + (uvalOf b r.1 r.2 : Int)) v ∧
      rest.foldl (fun w r => w * 2 ^ r.2 + (uvalOf b r.1 r.2 : Int)) v
          < 2 ^ (m + (rest.map Prod.snd).sum - 1) := by
  intro rest
  induction rest with
  | nil =>
    intro p v m hin hm1 hm hp hd hlo hhi
    exact ⟨p, rfl, hp, by simpa using hd, by simpa using hlo, by simpa using hhi⟩
  | cons r rest ih =>
    obtain ⟨si, ni⟩ := r
    intro p v m hin hm1 hm hp hd hlo hhi
    have hsum : (((si, ni) :: rest).map Prod.snd).sum
        = ni + (rest.map Prod.snd).sum := by simp
    rw [hsum] at hm
    have hni64 : ni ≤ 64 := by omega
    have hinr : si + ni ≤ b.bits.length := hin (si, ni) (List.mem_cons_self _ _)
    have ht : asUint64_t b si ni = .ok (uvalOf b si ni) :=
      asUint64_t_ok b si ni hinr hni64
    have htlt : uvalOf b si ni < 2 ^ ni := uvalOf_lt b si ni hinr
    rw [splitLoop_cons_rw b si ni rest p (uvalOf b si ni) ht, Nat.shiftLeft_eq]
    set t := uvalOf b si ni with htdef
    set a := p * 2 ^ ni % 2 ^ 64 with hadef
    have hdvd64 : (2 : Nat) ^ ni ∣ 2 ^ 64 := pow_dvd_pow 2 hni64
    have hamod : a % 2 ^ ni = 0 :=
      Nat.mod_eq_zero_of_dvd ((Nat.dvd_mod_iff hdvd64).mpr (dvd_mul_left _ p))
    have hlor : a ||| t = a + t := lor_disjoint hamod htlt
    have hK : (2 : Nat) ^ ni * 2 ^ (64 - ni) = 2 ^ 64 := by
      rw [← pow_add]; congr 1; omega
    obtain ⟨q, hqe⟩ : (2 : Nat) ^ ni ∣ a := Nat.dvd_iff_mod_eq_zero.mpr hamod
    have halt : a < 2 ^ 64 := Nat.mod_lt _ (Nat.two_pow_pos 64)
    have hq : q < 2 ^ (64 - ni) := by
      by_contra hge
      push_neg at hge
      have h1 : (2 : Nat) ^ 64 ≤ a := by
        rw [hqe, ← hK]
        exact Nat.mul_le_mul_left _ hge
      omega
    have hplt : a + t < 2 ^ 64 := by
      have h1 : a + t < 2 ^ ni * (q + 1) := by
        rw [hqe, Nat.mul_succ]
        omega
      have h2 : (2 : Nat) ^ ni * (q + 1) ≤ 2 ^ 64 := by
        rw [← hK]
        exact Nat.mul_le_mul_left _ hq
      omega
    have hdInt : (2 ^ 64 : Int) ∣ (((a + t : Nat) : Int)
        - (v * 2 ^ ni + (t : Int))) := by
      have he : (((a + t : Nat)) : Int) - (v * 2 ^ ni + (t : Int))
          = (((p * 2 ^ ni : Nat) : Int) % ((2 : Int) ^ 64)
              - ((p * 2 ^ ni : Nat) : Int))
            + ((p : Int) - v) * 2 ^ ni := by
        rw [hadef]
        push_cast
        ring
      rw [he]
      exact dvd_add (emod_sub_self_dvd _ _) (Dvd.dvd.mul_right hd _)
    have epow : (2 : Int) ^ (m + ni - 1) = 2 ^ (m - 1) * 2 ^ ni := by
      rw [← pow_add]; congr 1; omega
    have htnn : (0 : Int) ≤ (t : Int) := Int.ofNat_nonneg t
    have htlt2 : (t : Int) < 2 ^ ni := by exact_mod_cast htlt
    have hlo2 : -(2 : Int) ^ (m + ni - 1) ≤ v * 2 ^ ni + (t : Int) := by
      have h1 : (-((2 : Int) ^ (m - 1))) * 2 ^ ni ≤ v * 2 ^ ni :=
        mul_le_mul_of_nonneg_right hlo (by positivity)
      have h2 : (-((2 : Int) ^ (m - 1))) * 2 ^ ni = -(2 ^ (m - 1) * 2 ^ ni) := by
        ring
      rw [h2] at h1
      rw [epow]
      linarith
    have hhi2 : v * 2 ^ ni + (t : Int) < 2 ^ (m + ni - 1) := by
      have hv1 : v ≤ 2 ^ (m - 1) - 1 := by omega
      have h1 : v * 2 ^ ni ≤ ((2 : Int) ^ (m - 1) - 1) * 2 ^ ni :=
        mul_le_mul_of_nonneg_right hv1 (by positivity)
      have h2 : ((2 : Int) ^ (m - 1) - 1) * 2 ^ ni
          = 2 ^ (m - 1) * 2 ^ ni - 2 ^ ni := by ring
      rw [h2] at h1
      rw [epow]
      linarith
    obtain ⟨pf, hpf1, hpf2, hpf3, hpf4, hpf5⟩ :=
      ih (a + t) (v * 2 ^ ni + (t : Int)) (m + ni)
        (fun r hr => hin r (List.mem_cons_of_mem _ hr))
        (by omega) (by omega) hplt hdInt hlo2 hhi2
    refine ⟨pf, ?_, hpf2, ?_, ?_, ?_⟩
    · rw [hlor]
      exact hpf1
    · simp only [List.foldl_cons]
      exact hpf3
    · rw [hsum]
      simp only [List.foldl_cons]
      have he : m + (ni + (rest.map Prod.snd).sum) - 1
          = m + ni + (rest.map Prod.snd).sum - 1 := by omega
      rw [he]
      exact hpf4
    · rw [hsum]
      simp only [List.foldl_cons]
      have he : m + (ni + (rest.map Prod.snd).sum) - 1
          = m + ni + (rest.map Prod.snd).sum - 1 := by omega
      rw [he]
      exact hpf5

theorem asLongSplit_rw (b : PackedNavBits) (s0 n0 : Nat) (rest : List (Nat × Nat))
    (scale : Int) (p0 pf : Nat) (h0 : SignExtendU b s0 n0 = .ok p0)
    (h1 : splitLoop b rest p0 = .ok pf) :
    asLongSplit b ((s0, n0) :: rest) scale
      = .ok (toSigned64 (pf * intPat64 scale % 2 ^ 64)) := by
  show (match SignExtendU b s0 n0 with
        | Except.error e => Except.error e
        | Except.ok q0 =>
          match splitLoop b rest q0 with
          | Except.error e => Except.error e
          | Except.ok qf => Except.ok (toSigned64 (qf * intPat64 scale % 2 ^ 64)))
      = Except.ok (toSigned64 (pf * intPat64 scale % 2 ^ 64))
  rw [h0]
  show (match splitLoop b rest p0 with
        | Except.error e => Except.error e
        | Except.ok qf => Except.ok (toSigned64 (qf * intPat64 scale % 2 ^ 64)))
      = Except.ok (toSigned64 (pf * intPat64 scale % 2 ^ 64))
  rw [h1]

theorem intPat64_cast (scale : Int) :
    ((intPat64 scale : Nat) : Int) = scale % 2 ^ 64 := by
  unfold intPat64
  rw [Int.toNat_of_nonneg (Int.emod_nonneg scale (by norm_num))]

theorem svalOf_lb (b : PackedNavBits) (s n : Nat) (h1 : 1 ≤ n)
    (hb : s + n ≤ b.bits.length) : -(2 : Int) ^ (n - 1) ≤ svalOf b s n := by
  have hu : uvalOf b s n < 2 ^ n := uvalOf_lt b s n hb
  have h2n : (2 : Nat) ^ n = 2 * 2 ^ (n - 1) := by
    rw [← pow_succ']; congr 1; omega
  have c1 : ((2 ^ (n - 1) : Nat) : Int) = (2 : Int) ^ (n - 1) := by push_cast; ring
  have c2 : ((2 ^ n : Nat) : Int) = (2 : Int) ^ n := by push_cast; ring
  unfold svalOf
  by_cases htb : (uvalOf b s n).testBit (n - 1)
  · rw [if_pos htb]
    have hge : 2 ^ (n - 1) ≤ uvalOf b s n := testBit_true_ge htb
    omega
  · rw [if_neg htb]
    omega

theorem svalOf_ub (b : PackedNavBits) (s n : Nat) (h1 : 1 ≤ n)
    (hb : s + n ≤ b.bits.length) : svalOf b s n < 2 ^ (n - 1) := by
  have hu : uvalOf b s n < 2 ^ n := uvalOf_lt b s n hb
  have h2n : (2 : Nat) ^ n = 2 * 2 ^ (n - 1) := by
    rw [← pow_succ']; congr 1; omega
  have c1 : ((2 ^ (n - 1) : Nat) : Int) = (2 : Int) ^ (n - 1) := by push_cast; ring
  have c2 : ((2 ^ n : Nat) : Int) = (2 : Int) ^ n := by push_cast; ring
  unfold svalOf
  by_cases htb : (uvalOf b s n).testBit (n - 1)
  · rw [if_pos htb]
    omega
  · rw [if_neg htb]
    have hlt : uvalOf b s n < 2 ^ (n - 1) := by
      apply testBit_false_lt _ (by simpa using htb)
      have he : n - 1 + 1 = n := by omega
      rw [he]
      exact hu
    omega

/-- The sign-extension pattern is bounded by 2^64. -/
theorem sepat_lt (b : PackedNavBits) (s n : Nat) (h64 : n ≤ 64)
    (hb : s + n ≤ b.bits.length) :
    (if (uvalOf b s n).testBit (n - 1) then uvalOf b s n + (2 ^ 64 - 2 ^ n)
     else uvalOf b s n) < 2 ^ 64 := by
  have hu : uvalOf b s n < 2 ^ n := uvalOf_lt b s n hb
  have hpown : (2 : Nat) ^ n ≤ 2 ^ 64 := Nat.pow_le_pow_right (by norm_num) h64
  split <;> omega

/-- The sign-extension pattern represents `svalOf` modulo 2^64. -/
theorem sepat_dvd (b : PackedNavBits) (s n : Nat) (h64 : n ≤ 64) :
    (2 ^ 64 : Int) ∣
      (((if (uvalOf b s n).testBit (n - 1) then uvalOf b s n + (2 ^ 64 - 2 ^ n)
         else uvalOf b s n : Nat) : Int) - svalOf b s n) := by
  have hpown : (2 : Nat) ^ n ≤ 2 ^ 64 := Nat.pow_le_pow_right (by norm_num) h64
  unfold svalOf
  by_cases htb : (uvalOf b s n).testBit (n - 1)
  · rw [if_pos htb, if_pos htb]
    refine ⟨1, ?_⟩
    have c2 : ((2 ^ n : Nat) : Int) = (2 : Int) ^ n := by push_cast; ring
    push_cast
    omega
  · rw [if_neg htb, if_neg htb]
    simp

/-- Claim C6: every split signed unpack (the parallel-array `asLong`
overload) is computed by sign-extending the raw bits of the first range and
then, for each subsequent range, left-shifting the running value by that
range's width and OR-ing in that range's raw bits, finally multiplying by
the scale — i.e. it equals the specification-side concatenation fold
`splitConcatSpec`, never the arithmetic sum of per-range values: in the
concrete instance the ranges decode to −8 and 3, the result is
−8·2^2+3 = −29, not −8+3 = −5. -/
theorem claim_C6_split_concatenation :
    (∀ (b : PackedNavBits) (s0 n0 : Nat) (rest : List (Nat × Nat)) (scale : Int),
      s0 + n0 ≤ b.bits.length →
      (∀ r ∈ rest, r.1 + r.2 ≤ b.bits.length) →
      1 ≤ n0 → n0 + (rest.map Prod.snd).sum ≤ 64 →
      -(2 : Int) ^ 63 ≤ splitConcatSpec b (s0, n0) rest scale →
      splitConcatSpec b (s0, n0) rest scale < 2 ^ 63 →
      asLongSplit b ((s0, n0) :: rest) scale
        = .ok (splitConcatSpec b (s0, n0) rest scale)) ∧
    asLongSplit exSplit [(0, 4), (4, 2)] 1 = .ok (-29) ∧
    SignExtend exSplit 0 4 = .ok (-8) ∧
    asUint64_t exSplit 4 2 = .ok 3 ∧
    (-29 : Int) ≠ (-8 + 3) * 1 := by
  refine ⟨?_, rfl, rfl, rfl, by decide⟩
  intro b s0 n0 rest scale hb0 hin h1 hsum hlob hhib
  have h64 : n0 ≤ 64 := by omega
  have hseu := SignExtendU_ok b s0 n0 h1 h64 hb0
  obtain ⟨pf, hsl, hpflt, hpfd, hlo2, hhi2⟩ :=
    splitLoop_ok b rest
      (if (uvalOf b s0 n0).testBit (n0 - 1) then uvalOf b s0 n0 + (2 ^ 64 - 2 ^ n0)
       else uvalOf b s0 n0)
      (svalOf b s0 n0) n0 hin h1 hsum
      (sepat_lt b s0 n0 h64 hb0) (sepat_dvd b s0 n0 h64)
      (svalOf_lb b s0 n0 h1 hb0) (svalOf_ub b s0 n0 h1 hb0)
  rw [asLongSplit_rw b s0 n0 rest scale _ pf hseu hsl]
  congr 1
  have hproj : splitConcatSpec b (s0, n0) rest scale
      = scale * rest.foldl (fun w r => w * 2 ^ r.2 + (uvalOf b r.1 r.2 : Int))
          (svalOf b s0 n0) := rfl
  apply toSigned64_eq_of
  · exact Nat.mod_lt _ (Nat.two_pow_pos 64)
  · have d1 : (2 ^ 64 : Int) ∣ (((pf * intPat64 scale % 2 ^ 64 : Nat) : Int)
        - ((pf * intPat64 scale : Nat) : Int)) := by
      push_cast
      exact emod_sub_self_dvd _ _
    have d3 : (2 ^ 64 : Int) ∣ (((intPat64 scale : Nat) : Int) - scale) := by
      rw [intPat64_cast]
      exact emod_sub_self_dvd _ _
    have he : ((pf * intPat64 scale % 2 ^ 64 : Nat) : Int)
          - splitConcatSpec b (s0, n0) rest scale
        = (((pf * intPat64 scale % 2 ^ 64 : Nat) : Int)
            - ((pf * intPat64 scale : Nat) : Int))
          + ((pf : Int)
              - rest.foldl (fun w r => w * 2 ^ r.2 + (uvalOf b r.1 r.2 : Int))
                  (svalOf b s0 n0)) * ((intPat64 scale : Nat) : Int)
          + rest.foldl (fun w r => w * 2 ^ r.2 + (uvalOf b r.1 r.2 : Int))
              (svalOf b s0 n0) * (((intPat64 scale : Nat) : Int) - scale) := by
      rw [hproj]
      push_cast
      ring
    rw [he]
    exact dvd_add (dvd_add d1 (Dvd.dvd.mul_right hpfd _)) (Dvd.dvd.mul_left d3 _)
  · exact hlob
  · exact hhib

/-- Witness for claim C6 at the concrete split buffer. -/
theorem claim_C6_split_concatenation_witness :
    asLongSplit exSplit [(0, 4), (4, 2)] 1
      = .ok (splitConcatSpec exSplit (0, 4) [(4, 2)] 1) :=
  claim_C6_split_concatenation.1 exSplit 0 4 [(4, 2)] 1 (by decide)
    (by decide) (by decide) (by decide) (by decide) (by decide)

theorem slice_getD (b : PackedNavBits) (s n k : Nat) (hk : k < n) :
    ((b.bits.drop s).take n).getD k false = b.bits.getD (s + k) false := by
  simp only [List.getD_eq_getElem?_getD]
  rw [List.getElem?_take_of_lt hk, List.getElem?_drop]

/-- Claim C1 (amended): the raw extraction `asUint64_t` fails exactly when
`start + numBits` exceeds the *storage* size `bits.size()` — the capacity,
900 for a freshly constructed buffer — not `bitsUsed`; a request within the
storage succeeds (even inside `[bitsUsed, size)`) and returns the `numBits`
bits starting at `start`, MSB-first, in the low-order bits of the result. -/
theorem claim_C1_extractRaw_bound :
    ∀ (b : PackedNavBits) (start numBits : Nat),
      ((asUint64_t b start numBits).isOk = true ↔ start + numBits ≤ b.bits.length) ∧
      (start + numBits ≤ b.bits.length → numBits ≤ 64 →
        asUint64_t b start numBits = .ok (uvalOf b start numBits) ∧
        uvalOf b start numBits < 2 ^ numBits ∧
        ∀ j, j < numBits →
          (uvalOf b start numBits).testBit j
            = b.bits.getD (start + (numBits - 1 - j)) false) := by
  intro b start numBits
  constructor
  · exact asUint64_t_isOk_iff b start numBits
  · intro hb h64
    refine ⟨asUint64_t_ok b start numBits hb h64, uvalOf_lt b start numBits hb, ?_⟩
    intro j hj
    have hlen : ((b.bits.drop start).take numBits).length = numBits :=
      sliceLength b start numBits hb
    have ht := testBit_bitsToNat ((b.bits.drop start).take numBits) j (by omega)
    unfold uvalOf
    rw [ht, hlen, slice_getD b start numBits (numBits - 1 - j) (by omega)]

/-- Claim C1 counterexample: on a fresh (empty) buffer `bitsUsed = 0`, so
the claim requires `extractRaw(0, 1)` — which reaches into
`[bitsUsed, C)` — to fail with OutOfRange; the code instead succeeds and
returns 0. -/
theorem claim_C1_extractRaw_bound_cex :
    freshPNB.bits_used = 0 ∧ asUint64_t freshPNB 0 1 = .ok 0 :=
  ⟨rfl, rfl⟩

/-- Witness for claim C1 at a concrete in-range extraction. -/
theorem claim_C1_extractRaw_bound_witness :
    asUint64_t exSplit 0 3 = .ok (uvalOf exSplit 0 3) :=
  ((claim_C1_extractRaw_bound exSplit 0 3).2 (by decide) (by decide)).1

theorem asUnsignedLong_rw (b : PackedNavBits) (s n scale t : Nat)
    (h : asUint64_t b s n = .ok t) :
    asUnsignedLong b s n scale = .ok (t * scale % 2 ^ 64) := by
  show (match asUint64_t b s n with
        | Except.error e => Except.error e
        | Except.ok temp => Except.ok (temp * scale % 2 ^ 64))
      = Except.ok (t * scale % 2 ^ 64)
  rw [h]

/-- Claim C2: overflow rejection.  For `numBits ∈ [1,53]` packing
`2^numBits` with scale 1 is rejected with the range error, as the claim
states; but at `numBits = 54` the bound `(uint64_t)(pow(2,numBits)-1)`
evaluates (in binary64 arithmetic) to `2^54` itself, so the value `2^54`
passes the check and 54 zero bits are appended silently — the claimed
rejection for every `numBits ∈ [1,63]` fails, contradicting the routine's
own stated purpose. -/
theorem claim_C2_overflow_rejection :
    (∀ n, 1 ≤ n → n ≤ 53 →
      addUnsignedLong freshPNB (2 ^ n) n 1
        = .error ("Scaled value too large for specifed bit length")) ∧
    (addUnsignedLong freshPNB (2 ^ 54) 54 1).map
        (fun b2 => (b2.bits_used, b2.bits.take 54))
      = .ok (54, List.replicate 54 false) := by
  constructor
  · intro n h1 h53
    show (if 2 ^ n / 1 > rangeTest n then
            Except.error ("Scaled value too large for specifed bit length")
          else Except.ok (addUint64_t freshPNB (2 ^ n / 1) n))
        = Except.error ("Scaled value too large for specifed bit length")
    have hr : rangeTest n = 2 ^ n - 1 := by
      unfold rangeTest
      rw [if_pos h53]
    rw [Nat.div_one, hr, if_pos (by have := Nat.two_pow_pos n; omega)]
  · rfl

/-- Witness for claim C2: the rejection does hold at `numBits = 7`. -/
theorem claim_C2_overflow_rejection_witness :
    addUnsignedLong freshPNB (2 ^ 7) 7 1
      = .error ("Scaled value too large for specifed bit length") :=
  claim_C2_overflow_rejection.1 7 (by decide) (by decide)

/-- Claim C3 (amended): pack-then-unpack at the old `bitsUsed` returns
`(value / scale) * scale = value - value % scale`, which equals `value`
exactly when `scale = 1` and in general is within `scale` of `value`
(strictly less than `scale` away, not within `scale / 2` — integer division
truncates).  Stated for `numBits ∈ [1,63]`; at 64 the range check casts an
unrepresentable double to `uint64_t`, which is undefined behaviour. -/
theorem claim_C3_roundtrip :
    ∀ (b : PackedNavBits) (value numBits scale : Nat),
      1 ≤ numBits → numBits ≤ 63 → 1 ≤ scale → value < 2 ^ 64 →
      value / scale ≤ 2 ^ numBits - 1 →
      b.bits_used + numBits ≤ b.bits.length →
      (addUnsignedLong b value numBits scale).map
          (fun b2 => asUnsignedLong b2 b.bits_used numBits scale)
        = .ok (.ok (value / scale * scale)) ∧
      value - value / scale * scale < scale ∧
      (scale = 1 → value / scale * scale = value) := by
  intro b value numBits scale h1 h63 hs hv64 hrep hroom
  have hpos := Nat.two_pow_pos numBits
  have hout : value / scale ≤ rangeTest numBits := by
    unfold rangeTest
    split <;> omega
  have hpack : addUnsignedLong b value numBits scale
      = .ok (addUint64_t b (value / scale) numBits) := by
    show (if value / scale > rangeTest numBits then
            Except.error ("Scaled value too large for specifed bit length")
          else Except.ok (addUint64_t b (value / scale) numBits))
        = Except.ok (addUint64_t b (value / scale) numBits)
    rw [if_neg (by omega)]
  have hbits : (addUint64_t b (value / scale) numBits).bits
      = b.bits.take b.bits_used ++ bitsOf (value / scale) numBits
        ++ b.bits.drop (b.bits_used + numBits) :=
    addUint64_t_bits b (value / scale) numBits hroom
  have hpre : (b.bits.take b.bits_used).length = b.bits_used := by
    simp [List.length_take]
    omega
  have hread : asUint64_t (addUint64_t b (value / scale) numBits) b.bits_used numBits
      = .ok (bitsToNat (bitsOf (value / scale) numBits)) :=
    asUint64_t_region _ b.bits_used numBits _ _ _ hbits hpre
      (bitsOf_length _ _) (by omega)
  rw [bitsToNat_bitsOf, Nat.mod_eq_of_lt (by omega)] at hread
  have hmul : value / scale * scale % 2 ^ 64 = value / scale * scale := by
    apply Nat.mod_eq_of_lt
    have := Nat.div_mul_le_self value scale
    omega
  have hunpack : asUnsignedLong (addUint64_t b (value / scale) numBits)
      b.bits_used numBits scale = .ok (value / scale * scale) := by
    rw [asUnsignedLong_rw _ _ _ scale _ hread, hmul]
  refine ⟨?_, ?_, ?_⟩
  · rw [hpack]
    show Except.ok (asUnsignedLong (addUint64_t b (value / scale) numBits)
        b.bits_used numBits scale) = _
    rw [hunpack]
  · have hdm := Nat.div_add_mod value scale
    have hml := @Nat.mod_lt value scale (by omega)
    have hcm := Nat.mul_comm (value / scale) scale
    omega
  · intro h1s
    subst h1s
    simp

/-- Claim C3 counterexample: packing value 9 with numBits 4, scale 10 and
unpacking returns 0 (the scaled field stores 9/10 = 0), which is 9 away
from the original value — more than scale/2 = 5, refuting the
"within scale/2" clause. -/
theorem claim_C3_roundtrip_cex :
    (addUnsignedLong freshPNB 9 4 10).map (fun b2 => asUnsignedLong b2 0 4 10)
      = .ok (.ok 0) ∧ 10 / 2 < 9 - 0 :=
  ⟨rfl, by decide⟩

/-- Witness for claim C3 at a concrete exact round trip (scale 1). -/
theorem claim_C3_roundtrip_witness :
    (addUnsignedLong freshPNB 11 4 1).map
        (fun b2 => asUnsignedLong b2 freshPNB.bits_used 4 1)
      = .ok (.ok (11 / 1 * 1)) ∧ 11 - 11 / 1 * 1 < 1 ∧
      (1 = 1 → 11 / 1 * 1 = 11) :=
  claim_C3_roundtrip freshPNB 11 4 1 (by norm_num) (by norm_num) (by norm_num)
    (by norm_num) (by norm_num) (by decide)

theorem copyInto_length : ∀ (n : Nat) (dst src : List Bool) (ofs : Nat),
    (copyInto dst ofs src n).length = dst.length := by
  intro n
  induction n with
  | zero => intro dst src ofs; rfl
  | succ m ih =>
    intro dst src ofs
    show ((copyInto dst ofs src m).set (ofs + m) (src.getD m false)).length = dst.length
    rw [List.length_set, ih]

theorem listResize_length (l : List Bool) (n : Nat) : (listResize l n).length = n := by
  unfold listResize
  simp [List.length_take]
  omega

theorem addPackedNavBits_sizes (b r : PackedNavBits) :
    (addPackedNavBits b r).bits_used = b.bits_used + r.bits_used ∧
    (addPackedNavBits b r).bits.length = b.bits_used + r.bits_used := by
  refine ⟨rfl, ?_⟩
  show (copyInto (listResize b.bits (b.bits_used + r.bits_used)) b.bits_used
      r.bits r.bits_used).length = b.bits_used + r.bits_used
  rw [copyInto_length, listResize_length]

/-- Claim C10: `reset_num_bits(n)` unconditionally sets the `bits_used`
counter to `n` — with no validation against C = 900 or the storage size —
and leaves the stored bit content, the storage size, and every metadata
field unchanged; enforcing `bitsUsed ≤ C` is the caller's responsibility. -/
theorem claim_C10_reset_num_bits :
    ∀ (b : PackedNavBits) (n : Nat),
      (reset_num_bits b n).bits_used = n ∧
      (reset_num_bits b n).bits = b.bits ∧
      (reset_num_bits b n).satSys = b.satSys ∧
      (reset_num_bits b n).obsID = b.obsID ∧
      (reset_num_bits b n).navID = b.navID ∧
      (reset_num_bits b n).rxID = b.rxID ∧
      (reset_num_bits b n).transmitTime = b.transmitTime ∧
      (reset_num_bits b n).parityStatus = b.parityStatus ∧
      (reset_num_bits b n).xMitCoerced = b.xMitCoerced :=
  fun _ _ => ⟨rfl, rfl, rfl, rfl, rfl, rfl, rfl, rfl, rfl⟩

theorem copyInto_spec : ∀ (n : Nat) (dst src : List Bool) (ofs : Nat),
    ofs + n ≤ dst.length → n ≤ src.length →
    copyInto dst ofs src n
      = dst.take ofs ++ src.take n ++ dst.drop (ofs + n) := by
  intro n
  induction n with
  | zero =>
    intro dst src ofs h1 h2
    simp [copyInto]
  | succ m ih =>
    intro dst src ofs h1 h2
    show (copyInto dst ofs src m).set (ofs + m) (src.getD m false)
        = dst.take ofs ++ src.take (m + 1) ++ dst.drop (ofs + (m + 1))
    rw [ih dst src ofs (by omega) (by omega)]
    have hA : (dst.take ofs).length = ofs := by
      simp [List.length_take]; omega
    have hB : (src.take m).length = m := by
      simp [List.length_take]; omega
    have hAB : (dst.take ofs ++ src.take m).length = ofs + m := by
      simp [hA, hB]
    rw [List.set_append_right _ _ (le_of_eq hAB)]
    rw [hAB, Nat.sub_self]
    have hm : ofs + m < dst.length := by omega
    rw [List.drop_eq_getElem_cons hm, List.set_cons_zero]
    have hget : src.getD m false = src.get ⟨m, by omega⟩ := by
      simp [List.getD_eq_getElem?_getD, List.getElem?_eq_getElem (by omega : m < src.length)]
    have htk : src.take (m + 1) = src.take m ++ [src.get ⟨m, by omega⟩] := by
      rw [List.take_succ, List.getElem?_eq_getElem (by omega : m < src.length)]
      rfl
    rw [hget, htk]
    have hidx : ofs + (m + 1) = ofs + m + 1 := rfl
    rw [hidx]
    simp only [List.append_assoc, List.singleton_append]

/-- Claim C5 (amended): `addPackedNavBits` performs no capacity check and
never fails: it unconditionally appends the other buffer's used bits after
this buffer's used bits, grows `bitsUsed` by exactly the other's
`bitsUsed`, resizes the storage to exactly the combined length (even past
C = 900), and leaves every metadata field unchanged. -/
theorem claim_C5_packBuffer :
    ∀ (b r : PackedNavBits),
      b.bits_used ≤ b.bits.length → r.bits_used ≤ r.bits.length →
      (addPackedNavBits b r).bits_used = b.bits_used + r.bits_used ∧
      (addPackedNavBits b r).bits
        = b.bits.take b.bits_used ++ r.bits.take r.bits_used ∧
      (addPackedNavBits b r).bits.length = b.bits_used + r.bits_used ∧
      (addPackedNavBits b r).satSys = b.satSys ∧
      (addPackedNavBits b r).obsID = b.obsID ∧
      (addPackedNavBits b r).navID = b.navID ∧
      (addPackedNavBits b r).rxID = b.rxID ∧
      (addPackedNavBits b r).transmitTime = b.transmitTime ∧
      (addPackedNavBits b r).parityStatus = b.parityStatus := by
  intro b r hb hr
  have hrlen : (listResize b.bits (b.bits_used + r.bits_used)).length
      = b.bits_used + r.bits_used := by
    unfold listResize
    simp [List.length_take]
    omega
  have hbits : (addPackedNavBits b r).bits
      = b.bits.take b.bits_used ++ r.bits.take r.bits_used := by
    show copyInto (listResize b.bits (b.bits_used + r.bits_used)) b.bits_used
        r.bits r.bits_used
      = b.bits.take b.bits_used ++ r.bits.take r.bits_used
    rw [copyInto_spec r.bits_used _ r.bits b.bits_used (by omega) hr]
    rw [List.drop_of_length_le (le_of_eq hrlen)]
    have htk : (listResize b.bits (b.bits_used + r.bits_used)).take b.bits_used
        = b.bits.take b.bits_used := by
      unfold listResize
      rw [List.take_append_of_le_length (by simp [List.length_take]; omega)]
      rw [List.take_take, Nat.min_eq_left (by omega)]
    rw [htk]
    simp
  refine ⟨rfl, hbits, ?_, rfl, rfl, rfl, rfl, rfl, rfl⟩
  rw [hbits]
  simp [List.length_take]
  omega

/-- Claim C5 counterexample: appending a 500-used-bit buffer to itself
yields 1000 used bits and 1000 storage cells — beyond the capacity
C = 900 — with no CapacityExceeded error and the buffer changed. -/
theorem claim_C5_packBuffer_cex :
    (addPackedNavBits (reset_num_bits freshPNB 500)
        (reset_num_bits freshPNB 500)).bits_used = 1000 ∧
    (addPackedNavBits (reset_num_bits freshPNB 500)
        (reset_num_bits freshPNB 500)).bits.length = 1000 ∧
    900 < 1000 := by
  have h := addPackedNavBits_sizes (reset_num_bits freshPNB 500)
    (reset_num_bits freshPNB 500)
  refine ⟨rfl, ?_, by decide⟩
  rw [h.2]
  rfl

/-- Witness for claim C5 at concrete buffers. -/
theorem claim_C5_packBuffer_witness :
    (addPackedNavBits pnbA pnbB).bits_used = pnbA.bits_used + pnbB.bits_used ∧
    (addPackedNavBits pnbA pnbB).bits
      = pnbA.bits.take pnbA.bits_used ++ pnbB.bits.take pnbB.bits_used ∧
    (addPackedNavBits pnbA pnbB).bits.length = pnbA.bits_used + pnbB.bits_used ∧
    (addPackedNavBits pnbA pnbB).satSys = pnbA.satSys ∧
    (addPackedNavBits pnbA pnbB).obsID = pnbA.obsID ∧
    (addPackedNavBits pnbA pnbB).navID = pnbA.navID ∧
    (addPackedNavBits pnbA pnbB).rxID = pnbA.rxID ∧
    (addPackedNavBits pnbA pnbB).transmitTime = pnbA.transmitTime ∧
    (addPackedNavBits pnbA pnbB).parityStatus = pnbA.parityStatus :=
  claim_C5_packBuffer pnbA pnbB (by decide) (by decide)

theorem ltScan_self : ∀ l : List Bool, ltScan l l = false := by
  intro l
  induction l with
  | nil => rfl
  | cons a t ih => cases a <;> simp [ltScan, ih]

theorem ltScan_asymm : ∀ as bs : List Bool,
    ltScan as bs = true → ltScan bs as = false := by
  intro as
  induction as with
  | nil => intro bs h; cases bs <;> simp [ltScan] at h
  | cons a t ih =>
    intro bs h
    cases bs with
    | nil => simp [ltScan] at h
    | cons b u =>
      cases a <;> cases b <;> simp [ltScan] at h ⊢ <;> try exact ih u h

theorem lexLtSpec_cons (c : Bool) (t u : List Bool) :
    lexLtSpec (c :: t) (c :: u) ↔ lexLtSpec t u := by
  constructor
  · rintro ⟨i, hi, hpre, hai, hbi⟩
    cases i with
    | zero =>
      rw [List.getD_cons_zero] at hai hbi
      rw [hai] at hbi
      exact absurd hbi (by simp)
    | succ k =>
      refine ⟨k, by simpa using hi, fun j hj => ?_, by simpa using hai,
        by simpa using hbi⟩
      have := hpre (j + 1) (by omega)
      simpa using this
  · rintro ⟨i, hi, hpre, hai, hbi⟩
    refine ⟨i + 1, by simp only [List.length_cons]; omega, fun j hj => ?_,
      by simpa using hai, by simpa using hbi⟩
    cases j with
    | zero => simp
    | succ k =>
      have := hpre k (by omega)
      simpa using this

theorem lexLtSpec_false_true (t u : List Bool) : lexLtSpec (false :: t) (true :: u) :=
  ⟨0, by simp, fun j hj => absurd hj (by omega), by simp, by simp⟩

theorem lexLtSpec_true_false (t u : List Bool) : ¬ lexLtSpec (true :: t) (false :: u) := by
  rintro ⟨i, hi, hpre, hai, hbi⟩
  cases i with
  | zero => simp at hai
  | succ k =>
    have := hpre 0 (by omega)
    simp at this

theorem ltScan_iff : ∀ (as bs : List Bool), as.length = bs.length →
    (ltScan as bs = true ↔ lexLtSpec as bs) := by
  intro as
  induction as with
  | nil =>
    intro bs hlen
    cases bs with
    | nil =>
      simp only [ltScan, lexLtSpec]
      constructor
      · intro h; exact absurd h (by simp)
      · rintro ⟨i, hi, _⟩; simp at hi
    | cons b u => simp at hlen
  | cons a t ih =>
    intro bs hlen
    cases bs with
    | nil => simp at hlen
    | cons b u =>
      have hlen2 : t.length = u.length := by simpa using hlen
      cases a <;> cases b
      · rw [show ltScan (false :: t) (false :: u) = ltScan t u by simp [ltScan]]
        rw [ih u hlen2, lexLtSpec_cons]
      · constructor
        · intro _
          exact lexLtSpec_false_true t u
        · intro _
          simp [ltScan]
      · constructor
        · intro h
          simp [ltScan] at h
        · intro h
          exact absurd h (lexLtSpec_true_false t u)
      · rw [show ltScan (true :: t) (true :: u) = ltScan t u by simp [ltScan]]
        rw [ih u hlen2, lexLtSpec_cons]

/-- Claim C4 (amended): `operator<` is a strict weak order determined by the
*storage* (`bits.size()`), not `bitsUsed`: a buffer with smaller storage is
less regardless of content; for equal storage sizes `lessThan` holds iff
the full storage bit pattern is lexicographically (scanning from bit 0)
less; bit-identical storages satisfy neither direction, and the order is
asymmetric. -/
theorem claim_C4_ordering :
    (∀ a b : PackedNavBits, pnbLt a b = true ↔
      (a.bits.length < b.bits.length ∨
       (a.bits.length = b.bits.length ∧ lexLtSpec a.bits b.bits))) ∧
    (∀ a b : PackedNavBits, a.bits = b.bits →
      pnbLt a b = false ∧ pnbLt b a = false) ∧
    (∀ a b : PackedNavBits, pnbLt a b = true → pnbLt b a = false) := by
  refine ⟨?_, ?_, ?_⟩
  · intro a b
    unfold pnbLt
    by_cases hlen : a.bits.length ≠ b.bits.length
    · rw [if_pos hlen]
      simp only [decide_eq_true_eq]
      constructor
      · intro h; exact Or.inl h
      · rintro (h | ⟨h, _⟩)
        · exact h
        · exact absurd h hlen
    · rw [if_neg hlen]
      push_neg at hlen
      rw [ltScan_iff a.bits b.bits hlen]
      constructor
      · intro h; exact Or.inr ⟨hlen, h⟩
      · rintro (h | ⟨_, h⟩)
        · omega
        · exact h
  · intro a b hab
    have h1 : pnbLt a b = false := by
      unfold pnbLt
      rw [if_neg (by rw [hab]; simp), hab, ltScan_self]
    have h2 : pnbLt b a = false := by
      unfold pnbLt
      rw [if_neg (by rw [hab]; simp), hab, ltScan_self]
    exact ⟨h1, h2⟩
  · intro a b h
    unfold pnbLt at h ⊢
    by_cases hlen : a.bits.length ≠ b.bits.length
    · rw [if_pos hlen] at h
      rw [if_pos (Ne.symm hlen)]
      simp only [decide_eq_true_eq] at h
      simp only [decide_eq_false_iff_not]
      omega
    · rw [if_neg hlen] at h
      push_neg at hlen
      rw [if_neg (by omega)]
      exact ltScan_asymm a.bits b.bits h

/-- Claim C4 counterexample: `pnbA` has fewer used bits than `pnbB`
(1 < 2), so the claim requires `lessThan(pnbA, pnbB)`; but the storages
have equal size and `pnbA`'s first storage bit is `true` against `pnbB`'s
`false`, so the code returns `false`. -/
theorem claim_C4_ordering_cex :
    pnbA.bits_used < pnbB.bits_used ∧ pnbLt pnbA pnbB = false :=
  ⟨by decide, by decide⟩

/-- Witness for claim C4: bit-identical buffers compare as equal. -/
theorem claim_C4_ordering_witness :
    pnbLt freshPNB freshPNB = false ∧ pnbLt freshPNB freshPNB = false :=
  claim_C4_ordering.2.1 freshPNB freshPNB rfl

theorem copyPNB_bits (b : PackedNavBits) (h : b.bits_used ≤ b.bits.length) :
    (copyPNB b).bits = b.bits.take b.bits_used := by
  show (List.range b.bits_used).map (fun i => b.bits.getD i false)
      = b.bits.take b.bits_used
  apply List.ext_getElem
  · simp [List.length_take]
    omega
  · intro i h1 h2
    simp only [List.getElem_map, List.getElem_range, List.getElem_take]
    have hi : i < b.bits.length := by
      simp at h1
      omega
    simp [List.getD_eq_getElem?_getD, List.getElem?_eq_getElem hi]

/-- Claim C9: the copy constructor (reached by `clone`) copies the
metadata, `bits_used`, and the used bits, but resizes the copy's storage to
exactly `bits_used` cells; because `matchBits` — invoked by
`operator==`/`match` — first requires equal storage sizes, a buffer whose
storage size differs from its `bits_used` (e.g. a never-trimmed buffer with
`bits_used < 900`) compares unequal to its own fresh clone. -/
theorem claim_C9_clone_unequal :
    ∀ b : PackedNavBits, b.bits_used ≤ b.bits.length →
      (copyPNB b).bits_used = b.bits_used ∧
      (copyPNB b).bits = b.bits.take b.bits_used ∧
      (copyPNB b).bits.length = b.bits_used ∧
      (copyPNB b).satSys = b.satSys ∧
      (copyPNB b).obsID = b.obsID ∧
      (copyPNB b).navID = b.navID ∧
      (copyPNB b).rxID = b.rxID ∧
      (copyPNB b).transmitTime = b.transmitTime ∧
      (copyPNB b).parityStatus = b.parityStatus ∧
      (b.bits_used ≠ b.bits.length → beqPNB b (copyPNB b) = false) := by
  intro b h
  have hlen : (copyPNB b).bits.length = b.bits_used := by
    rw [copyPNB_bits b h]
    simp [List.length_take]
    omega
  refine ⟨rfl, copyPNB_bits b h, hlen, rfl, rfl, rfl, rfl, rfl, rfl, ?_⟩
  intro hne
  have hmb : matchBits b (copyPNB b) 0 ((b.bits_used : Int) - 1) = false := by
    unfold matchBits
    rw [if_pos (by rw [hlen]; omega)]
  show (matchMetaData b (copyPNB b) mmALL
      && matchBits b (copyPNB b) 0 ((b.bits_used : Int) - 1)) = false
  rw [hmb, Bool.and_false]

/-- Witness for claim C9: a fresh buffer rewound to 10 used bits (storage
still 900) is not equal to its own clone. -/
theorem claim_C9_clone_unequal_witness :
    beqPNB (reset_num_bits freshPNB 10) (copyPNB (reset_num_bits freshPNB 10)) = false :=
  (claim_C9_clone_unequal (reset_num_bits freshPNB 10)
    (by decide)).2.2.2.2.2.2.2.2.2 (by decide)

theorem addChars_fold : ∀ (cs : List Nat) (b : PackedNavBits),
    (∀ c ∈ cs, validChar c = true) →
    addChars b cs = .ok (cs.foldl (fun b2 c => addUint64_t b2 c 8) b) := by
  intro cs
  induction cs with
  | nil => intro b _; rfl
  | cons c t ih =>
    intro b hval
    show (if validChar c then addChars (addUint64_t b c 8) t
          else .error ("Invalid character in text string."))
        = .ok ((c :: t).foldl (fun b2 c => addUint64_t b2 c 8) b)
    rw [if_pos (hval c (List.mem_cons_self _ _)), List.foldl_cons]
    exact ih _ (fun x hx => hval x (List.mem_cons_of_mem _ hx))

theorem addChars_isOk : ∀ (cs : List Nat) (b : PackedNavBits),
    (addChars b cs).isOk = true ↔ ∀ c ∈ cs, validChar c = true := by
  intro cs
  induction cs with
  | nil =>
    intro b
    simp [addChars, Except.isOk, Except.toBool]
  | cons c t ih =>
    intro b
    show (if validChar c then addChars (addUint64_t b c 8) t
          else .error ("Invalid character in text string.")).isOk = true ↔ _
    by_cases hc : validChar c
    · rw [if_pos hc, ih]
      constructor
      · intro hall x hx
        rcases List.mem_cons.mp hx with h | h
        · rw [h]; exact hc
        · exact hall x h
      · intro hall x hx
        exact hall x (List.mem_cons_of_mem _ hx)
    · rw [if_neg hc]
      constructor
      · intro h
        exact absurd h (by simp [Except.isOk, Except.toBool])
      · intro hall
        exact absurd (hall c (List.mem_cons_self _ _)) hc

theorem addPad_fold : ∀ (n : Nat) (b : PackedNavBits),
    addPad b n = (List.replicate n (32 : Nat)).foldl
      (fun b2 c => addUint64_t b2 c 8) b := by
  intro n
  induction n with
  | zero => intro b; rfl
  | succ m ih =>
    intro b
    show addPad (addUint64_t b 32 8) m = _
    rw [List.replicate_succ, List.foldl_cons]
    exact ih _

theorem foldAdd_spec : ∀ (cs : List Nat) (b : PackedNavBits),
    b.bits_used + 8 * cs.length ≤ b.bits.length →
    (cs.foldl (fun b2 c => addUint64_t b2 c 8) b).bits_used
        = b.bits_used + 8 * cs.length ∧
    (cs.foldl (fun b2 c => addUint64_t b2 c 8) b).bits.length = b.bits.length ∧
    (cs.foldl (fun b2 c => addUint64_t b2 c 8) b).bits
      = b.bits.take b.bits_used ++ (cs.map (fun c => bitsOf c 8)).flatten
        ++ b.bits.drop (b.bits_used + 8 * cs.length) := by
  intro cs
  induction cs with
  | nil =>
    intro b h
    refine ⟨by simp, rfl, ?_⟩
    simp [List.take_append_drop]
  | cons c t ih =>
    intro b h
    simp only [List.length_cons] at h
    have h8 : b.bits_used + 8 ≤ b.bits.length := by omega
    have hbits' : (addUint64_t b c 8).bits
        = b.bits.take b.bits_used ++ bitsOf c 8 ++ b.bits.drop (b.bits_used + 8) :=
      addUint64_t_bits b c 8 h8
    have hlen' : (addUint64_t b c 8).bits.length = b.bits.length :=
      addUint64_t_length b c 8
    have hused' : (addUint64_t b c 8).bits_used = b.bits_used + 8 := rfl
    obtain ⟨ih1, ih2, ih3⟩ := ih (addUint64_t b c 8)
      (by rw [hused', hlen']; omega)
    rw [List.foldl_cons]
    simp only [List.length_cons, List.map_cons, List.flatten_cons]
    have hA : (b.bits.take b.bits_used).length = b.bits_used := by
      simp [List.length_take]; omega
    have hAB : (b.bits.take b.bits_used ++ bitsOf c 8).length = b.bits_used + 8 := by
      simp [hA, bitsOf_length]
    refine ⟨?_, ?_, ?_⟩
    · rw [ih1, hused']
      omega
    · rw [ih2, hlen']
    · have hassoc : (addUint64_t b c 8).bits
          = (b.bits.take b.bits_used ++ bitsOf c 8)
            ++ b.bits.drop (b.bits_used + 8) := by
        rw [hbits', List.append_assoc]
      have htk : (addUint64_t b c 8).bits.take (b.bits_used + 8)
          = b.bits.take b.bits_used ++ bitsOf c 8 := by
        rw [hassoc]
        exact List.take_left' hAB
      have hdr : (addUint64_t b c 8).bits.drop (b.bits_used + 8 + 8 * t.length)
          = b.bits.drop (b.bits_used + 8 * (t.length + 1)) := by
        rw [hassoc]
        have he : b.bits_used + 8 + 8 * t.length = (b.bits.take b.bits_used
            ++ bitsOf c 8).length + 8 * t.length := by rw [hAB]
        rw [he, List.drop_append, List.drop_drop]
        congr 1
        omega
      rw [ih3, hused', htk, hdr]
      simp only [List.append_assoc]

theorem take_min_eq (s : List Nat) (numChars : Nat) :
    s.take (min numChars s.length) = s.take numChars := by
  rcases Nat.le_total numChars s.length with h | h
  · rw [Nat.min_eq_left h]
  · rw [Nat.min_eq_right h, List.take_length, List.take_of_length_le h]

theorem addString_fold (b : PackedNavBits) (s : List Nat) (numChars : Nat)
    (hval : ∀ c ∈ s.take (min numChars s.length), validChar c = true) :
    addString b s numChars
      = .ok ((s.take numChars ++ List.replicate (numChars - s.length) 32).foldl
          (fun b2 c => addUint64_t b2 c 8) b) := by
  show (match addChars b (s.take (min numChars s.length)) with
        | Except.error e => Except.error e
        | Except.ok b2 => Except.ok (addPad b2 (numChars - s.length)))
      = _
  rw [addChars_fold _ _ hval]
  show Except.ok (addPad ((s.take (min numChars s.length)).foldl
      (fun b2 c => addUint64_t b2 c 8) b) (numChars - s.length)) = _
  rw [addPad_fold, ← List.foldl_append, take_min_eq]

theorem addString_isOk_eq (b : PackedNavBits) (s : List Nat) (numChars : Nat) :
    (addString b s numChars).isOk
      = (addChars b (s.take (min numChars s.length))).isOk := by
  show (match addChars b (s.take (min numChars s.length)) with
        | Except.error e => Except.error e
        | Except.ok b2 => Except.ok (addPad b2 (numChars - s.length))).isOk
      = _
  rcases h : addChars b (s.take (min numChars s.length)) with e | b2 <;> rfl

/-- Claim C8: `packString` copies exactly `min(length, numChars)`
characters, right-pads with ASCII space (0x20) to `numChars` when the input
is shorter and truncates when longer; it aborts with the invalid-character
error exactly when one of the copied characters is outside the allowed set
(uppercase letters, '0'..':', space, double quote, single quote, '+',
'-'..'/', byte 0xF8).  In particular "HI" packed to 4 stores the bytes of
"HI  " and "HELLO" packed to 3 stores "HEL"; a lowercase letter aborts. -/
theorem claim_C8_packString :
    (∀ (b : PackedNavBits) (s : List Nat) (numChars : Nat),
      (∀ c ∈ s.take (min numChars s.length), validChar c = true) →
      b.bits_used + 8 * numChars ≤ b.bits.length →
      (addString b s numChars).map (fun b2 => (b2.bits_used, b2.bits))
        = .ok (b.bits_used + 8 * numChars,
            b.bits.take b.bits_used
              ++ ((s.take numChars
                    ++ List.replicate (numChars - s.length) 32).map
                  (fun c => bitsOf c 8)).flatten
              ++ b.bits.drop (b.bits_used + 8 * numChars))) ∧
    (∀ (b : PackedNavBits) (s : List Nat) (numChars : Nat),
      (addString b s numChars).isOk = true
        ↔ ∀ c ∈ s.take (min numChars s.length), validChar c = true) ∧
    (addString freshPNB [72, 73] 4).map
        (fun b2 => (b2.bits_used, b2.bits.take 32))
      = .ok (32, (([72, 73, 32, 32] : List Nat).map (fun c => bitsOf c 8)).flatten) ∧
    (addString freshPNB [72, 69, 76, 76, 79] 3).map
        (fun b2 => (b2.bits_used, b2.bits.take 24))
      = .ok (24, (([72, 69, 76] : List Nat).map (fun c => bitsOf c 8)).flatten) ∧
    (addString freshPNB [72, 97] 4).isOk = false := by
  refine ⟨?_, ?_, rfl, rfl, rfl⟩
  · intro b s numChars hval hroom
    rw [addString_fold b s numChars hval]
    have hlen : (s.take numChars ++ List.replicate (numChars - s.length)
        (32 : Nat)).length = numChars := by
      simp [List.length_take, List.length_replicate]
      omega
    obtain ⟨h1, h2, h3⟩ := foldAdd_spec
      (s.take numChars ++ List.replicate (numChars - s.length) 32) b
      (by rw [hlen]; exact hroom)
    simp only [Except.map]
    rw [h1, h3, hlen]
  · intro b s numChars
    rw [addString_isOk_eq]
    exact addChars_isOk _ _

/-- Witness for claim C8 at a concrete padded pack. -/
theorem claim_C8_packString_witness :
    (addString freshPNB [72] 2).map (fun b2 => (b2.bits_used, b2.bits))
      = .ok (freshPNB.bits_used + 8 * 2,
          freshPNB.bits.take freshPNB.bits_used
            ++ ((([72] : List Nat).take 2
                  ++ List.replicate (2 - ([72] : List Nat).length) 32).map
                (fun c => bitsOf c 8)).flatten
            ++ freshPNB.bits.drop (freshPNB.bits_used + 8 * 2)) :=
  claim_C8_packString.1 freshPNB [72] 2 (by decide) (by decide)

theorem foldAdd32_spec : ∀ (cs : List Nat) (b : PackedNavBits),
    b.bits_used + 32 * cs.length ≤ b.bits.length →
    (cs.foldl (fun b2 c => addUint64_t b2 c 32) b).bits_used
        = b.bits_used + 32 * cs.length ∧
    (cs.foldl (fun b2 c => addUint64_t b2 c 32) b).bits.length = b.bits.length ∧
    (cs.foldl (fun b2 c => addUint64_t b2 c 32) b).bits
      = b.bits.take b.bits_used ++ (cs.map (fun c => bitsOf c 32)).flatten
        ++ b.bits.drop (b.bits_used + 32 * cs.length) := by
  intro cs
  induction cs with
  | nil =>
    intro b h
    refine ⟨by simp, rfl, ?_⟩
    simp [List.take_append_drop]
  | cons c t ih =>
    intro b h
    simp only [List.length_cons] at h
    have h32 : b.bits_used + 32 ≤ b.bits.length := by omega
    have hbits2 := addUint64_t_bits b c 32 h32
    have hlen2 := addUint64_t_length b c 32
    have hused2 : (addUint64_t b c 32).bits_used = b.bits_used + 32 := rfl
    rw [List.foldl_cons]
    simp only [List.length_cons, List.map_cons, List.flatten_cons]
    set b2 := addUint64_t b c 32 with hb2
    clear_value b2
    obtain ⟨ih1, ih2, ih3⟩ := ih b2 (by rw [hused2, hlen2]; omega)
    have hA : (b.bits.take b.bits_used).length = b.bits_used := by
      simp [List.length_take]; omega
    have hAB : (b.bits.take b.bits_used ++ bitsOf c 32).length = b.bits_used + 32 := by
      simp [hA, bitsOf_length]
    refine ⟨?_, ?_, ?_⟩
    · rw [ih1, hused2]
      omega
    · rw [ih2, hlen2]
    · have hassoc : b2.bits
          = (b.bits.take b.bits_used ++ bitsOf c 32)
            ++ b.bits.drop (b.bits_used + 32) := by
        rw [hbits2, List.append_assoc]
    
      have htk : b2.bits.take (b.bits_used + 32)
          = b.bits.take b.bits_used ++ bitsOf c 32 := by
        rw [hassoc]
        exact List.take_left' hAB
      have hdr : b2.bits.drop (b.bits_used + 32 + 32 * t.length)
          = b.bits.drop (b.bits_used + 32 * (t.length + 1)) := by
        rw [hassoc]
        have h2 := @List.drop_append Bool (b.bits.take b.bits_used ++ bitsOf c 32)
          (b.bits.drop (b.bits_used + 32)) (32 * t.length)
        rw [hAB, List.drop_drop] at h2
        rw [h2]
        congr 1
        omega
      rw [ih3, hused2, htk, hdr]
      simp only [List.append_assoc]

theorem findIdxFrom_start (p : Char → Bool) (c : Char) (rest : List Char)
    (hc : p c = true) :
    findIdxFrom p (c :: rest) 0 = some 0 := by
  unfold findIdxFrom
  rw [List.drop_zero, List.findIdx?_cons, if_pos hc]

theorem findIdx?_skip (p : Char → Bool) (xs ys : List Char)
    (hxs : ∀ c ∈ xs, p c = false) :
    (xs ++ ys).findIdx? p = (ys.findIdx? p).map (fun i => i + xs.length) := by
  rw [List.findIdx?_append, List.findIdx?_eq_none_iff.mpr hxs, Option.none_or]

theorem findIdxFrom_sep (ds : List Char) (rest : List Char)
    (hds : ∀ c ∈ ds, isWSChar c = false) :
    findIdxFrom isWSChar (ds ++ ' ' :: rest) 0 = some ds.length := by
  unfold findIdxFrom
  rw [List.drop_zero, findIdx?_skip isWSChar ds (' ' :: rest) hds,
    List.findIdx?_cons, if_pos (by decide : isWSChar ' ' = true)]
  simp only [Option.map_some', Nat.zero_add]

theorem drop_sep (pre X : List Char) :
    (pre ++ ' ' :: X).drop (pre.length + 1) = X := by
  have he : pre ++ ' ' :: X = (pre ++ [' ']) ++ X := by simp
  rw [he]
  exact List.drop_left' (by simp)

theorem wordLoop_step (ins : List Char) (n e : Nat) (b : PackedNavBits)
    (r be bg : Nat) (end2 : Option Nat) (w : List Char)
    (hbg : findIdxFrom (fun c => !isWSChar c) ins (e + 1) = some bg)
    (hend : findIdxFrom isWSChar ins bg = end2)
    (hword : hexWordAt ins bg end2 = w)
    (hpre : w.take 2 = ['0', 'x'] ∨ w.take 2 = ['0', 'X'])
    (hval : x2uint w ≤ 2 ^ 32 - 1) :
    wordLoop ins (n + 1) (some e) b r be
      = wordLoop ins n end2 (addUint64_t b (x2uint w) 32) (r + min (be - r) 32) be := by
  subst hend
  subst hword
  have e1 : wordLoop ins (n + 1) (some e) b r be
      = (match findIdxFrom (fun c => !isWSChar c) ins (e + 1) with
         | none => Except.error ("Did not find expected number of hex words.")
         | some bg2 =>
           let endv := findIdxFrom isWSChar ins bg2
           let hexWord := hexWordAt ins bg2 endv
           if hexWord.take 2 ≠ ['0', 'x'] ∧ hexWord.take 2 ≠ ['0', 'X'] then
             Except.error ("Expected hex data did not being with 0x")
           else
             match addUnsignedLong b (x2uint hexWord) 32 1 with
             | Except.error err => Except.error err
             | Except.ok b2 => wordLoop ins n endv b2 (r + min (be - r) 32) be) := rfl
  rw [e1, hbg]
  show (if (hexWordAt ins bg (findIdxFrom isWSChar ins bg)).take 2 ≠ ['0', 'x'] ∧
           (hexWordAt ins bg (findIdxFrom isWSChar ins bg)).take 2 ≠ ['0', 'X'] then
          Except.error ("Expected hex data did not being with 0x")
        else
          match addUnsignedLong b
              (x2uint (hexWordAt ins bg (findIdxFrom isWSChar ins bg))) 32 1 with
          | Except.error err => Except.error err
          | Except.ok b2 => wordLoop ins n (findIdxFrom isWSChar ins bg) b2
              (r + min (be - r) 32) be) = _
  have e3 : addUnsignedLong b
      (x2uint (hexWordAt ins bg (findIdxFrom isWSChar ins bg))) 32 1
      = Except.ok (addUint64_t b
          (x2uint (hexWordAt ins bg (findIdxFrom isWSChar ins bg))) 32) := by
    show (if x2uint (hexWordAt ins bg (findIdxFrom isWSChar ins bg)) / 1
            > rangeTest 32 then
            Except.error ("Scaled value too large for specifed bit length")
          else Except.ok (addUint64_t b
            (x2uint (hexWordAt ins bg (findIdxFrom isWSChar ins bg)) / 1) 32)) = _
    have hrt : rangeTest 32 = 2 ^ 32 - 1 := rfl
    rw [Nat.div_one, if_neg (by rw [hrt]; omega)]
  rw [if_neg (by
    rcases hpre with h | h
    · rintro ⟨h1, _⟩
      exact h1 h
    · rintro ⟨_, h2⟩
      exact h2 h), e3]

theorem word_bg (pre w tail : List Char) (hw : w ≠ [])
    (hnws : ∀ c ∈ w, isWSChar c = false) :
    findIdxFrom (fun c => !isWSChar c) (pre ++ ' ' :: (w ++ tail)) (pre.length + 1)
      = some (pre.length + 1) := by
  unfold findIdxFrom
  rw [drop_sep]
  cases w with
  | nil => exact absurd rfl hw
  | cons c0 w2 =>
    rw [List.cons_append, List.findIdx?_cons,
      if_pos (by rw [hnws c0 (List.mem_cons_self c0 w2)]; rfl)]

theorem word_end_last (pre w : List Char) (hnws : ∀ c ∈ w, isWSChar c = false) :
    findIdxFrom isWSChar (pre ++ ' ' :: w) (pre.length + 1) = none := by
  unfold findIdxFrom
  rw [drop_sep, List.findIdx?_eq_none_iff.mpr hnws]

theorem word_end_mid (pre w rest : List Char)
    (hnws : ∀ c ∈ w, isWSChar c = false) :
    findIdxFrom isWSChar (pre ++ ' ' :: (w ++ ' ' :: rest)) (pre.length + 1)
      = some (pre.length + 1 + w.length) := by
  unfold findIdxFrom
  rw [drop_sep, findIdx?_skip isWSChar w (' ' :: rest) hnws, List.findIdx?_cons,
    if_pos (by decide : isWSChar ' ' = true)]
  simp only [Option.map_some', Nat.zero_add]

theorem hexWordAt_mid (ins : List Char) (bg : Nat) (w tail : List Char)
    (hdrop : ins.drop bg = w ++ tail) :
    hexWordAt ins bg (some (bg + w.length)) = w := by
  unfold hexWordAt
  rw [hdrop]
  show List.take (bg + w.length - bg) (w ++ tail) = w
  have he : bg + w.length - bg = w.length := by omega
  rw [he]
  exact List.take_left w tail

theorem hexWordAt_none (ins : List Char) (bg : Nat) (w : List Char)
    (hdrop : ins.drop bg = w) : hexWordAt ins bg none = w := by
  unfold hexWordAt
  exact hdrop

theorem wordLoop_spec : ∀ (hws : List (List Char)) (ins pre : List Char)
    (b : PackedNavBits) (r N : Nat),
    (hws ≠ [] → ins = pre ++ ' ' :: renderWords hws) →
    (∀ w ∈ hws, w ≠ [] ∧ (∀ c ∈ w, isWSChar c = false) ∧
      (w.take 2 = ['0', 'x'] ∨ w.take 2 = ['0', 'X']) ∧ x2uint w ≤ 2 ^ 32 - 1) →
    r ≤ N → N ≤ r + 32 * hws.length →
    wordLoop ins hws.length (some pre.length) b r N
      = .ok ((hws.map x2uint).foldl (fun b2 v => addUint64_t b2 v 32) b, N) := by
  intro hws
  induction hws with
  | nil =>
    intro ins pre b r N _ _ h1 h2
    simp only [List.length_nil, List.map_nil, List.foldl_nil]
    show Except.ok (b, r) = Except.ok (b, N)
    have : r = N := by simpa using Nat.le_antisymm h1 (by simpa using h2)
    rw [this]
  | cons w ws ih =>
    intro ins pre b r N hins hcond h1 h2
    obtain ⟨hwne, hwnws, hwpre, hwval⟩ := hcond w (List.mem_cons_self _ _)
    have hins2 := hins (by simp)
    cases ws with
    | nil =>
      have hins3 : ins = pre ++ ' ' :: (w ++ []) := by
        rw [List.append_nil]
        exact hins2
      have hbg := word_bg pre w [] hwne hwnws
      rw [← hins3] at hbg
      have hend : findIdxFrom isWSChar ins (pre.length + 1) = none := by
        rw [hins2]
        exact word_end_last pre w hwnws
      have hword : hexWordAt ins (pre.length + 1) none = w := by
        apply hexWordAt_none
        rw [hins2]
        exact drop_sep pre w
      rw [show ([w] : List (List Char)).length = 0 + 1 from rfl,
        wordLoop_step ins 0 pre.length b r N (pre.length + 1) none w
          hbg hend hword hwpre hwval]
      show Except.ok (addUint64_t b (x2uint w) 32, r + min (N - r) 32)
          = Except.ok (([w].map x2uint).foldl (fun b2 v => addUint64_t b2 v 32) b, N)
      simp only [List.map_cons, List.map_nil, List.foldl_cons, List.foldl_nil]
      have hr : r + min (N - r) 32 = N := by
        simp only [List.length_cons, List.length_nil] at h2
        omega
      rw [hr]
    | cons v vs =>
      have hrw : renderWords (w :: v :: vs) = w ++ ' ' :: renderWords (v :: vs) := rfl
      rw [hrw] at hins2
      have hbg := word_bg pre w (' ' :: renderWords (v :: vs)) hwne hwnws
      rw [← hins2] at hbg
      have hend : findIdxFrom isWSChar ins (pre.length + 1)
          = some (pre.length + 1 + w.length) := by
        rw [hins2]
        exact word_end_mid pre w (renderWords (v :: vs)) hwnws
      have hword : hexWordAt ins (pre.length + 1) (some (pre.length + 1 + w.length))
          = w := by
        apply hexWordAt_mid
        rw [hins2]
        exact drop_sep pre (w ++ ' ' :: renderWords (v :: vs))
      have hstep := wordLoop_step ins (v :: vs).length pre.length b r N
        (pre.length + 1) (some (pre.length + 1 + w.length)) w
        hbg hend hword hwpre hwval
      rw [show (w :: v :: vs).length = (v :: vs).length + 1 from rfl, hstep]
      have hlen2 : pre.length + 1 + w.length = (pre ++ ' ' :: w).length := by
        simp
        omega
      rw [hlen2]
      have hih := ih ins (pre ++ ' ' :: w) (addUint64_t b (x2uint w) 32)
        (r + min (N - r) 32) N
        (fun _ => by rw [hins2, List.append_assoc, List.cons_append])
        (fun x hx => hcond x (List.mem_cons_of_mem _ hx))
        (by simp only [List.length_cons] at h2; omega)
        (by simp only [List.length_cons] at h2 ⊢; omega)
      rw [hih]
      simp only [List.map_cons, List.foldl_cons]

theorem flatten32_length (hws : List (List Char)) :
    ((hws.map (fun w => bitsOf (x2uint w) 32)).flatten).length = 32 * hws.length := by
  induction hws with
  | nil => rfl
  | cons w ws ih =>
    simp only [List.map_cons, List.flatten_cons, List.length_append, ih,
      bitsOf_length, List.length_cons]
    ring

/-- Claim C7: on a freshly constructed (empty) buffer, `rawBitInput`
(`importFromText`) of a well-formed text — a decimal bit count `N` followed
by `ceil(N/32)` left-justified `0x`-marked 32-bit hex words — appends those
words' bits MSB-first and sets `bits_used` to exactly `N`; in particular
importing `"32 0xABCD1234"` yields `bits_used = 32` and
`extractRaw 0 32 = 0xABCD1234`. -/
theorem claim_C7_importFromText :
    (∀ (ds : List Char) (hws : List (List Char)) (b : PackedNavBits),
      ds ≠ [] →
      (∀ c ∈ ds, isWSChar c = false) →
      (∀ w ∈ hws, w ≠ [] ∧ (∀ c ∈ w, isWSChar c = false) ∧
        (w.take 2 = ['0', 'x'] ∨ w.take 2 = ['0', 'X']) ∧ x2uint w ≤ 2 ^ 32 - 1) →
      (asInt ds - 1) / 32 + 1 = hws.length →
      b.bits_used = 0 →
      32 * hws.length ≤ b.bits.length →
      (rawBitInput b (ds ++ ' ' :: renderWords hws)).map
          (fun b2 => (b2.bits_used, b2.bits))
        = .ok (asInt ds,
            ((hws.map (fun w => bitsOf (x2uint w) 32)).flatten).take (asInt ds))) ∧
    (rawBitInput freshPNB ("32 0xABCD1234".toList)).map
        (fun b2 => (b2.bits_used, asUint64_t b2 0 32))
      = .ok (32, .ok 0xABCD1234) := by
  refine ⟨?_, ?_⟩
  · intro ds hws b hdsne hdsnws hcond hk hbu hblen
    have h0 : findIdxFrom (fun c => !isWSChar c)
        (ds ++ ' ' :: renderWords hws) 0 = some 0 := by
      cases ds with
      | nil => exact absurd rfl hdsne
      | cons d ds2 =>
        rw [List.cons_append]
        exact findIdxFrom_start _ d _
          (by rw [hdsnws d (List.mem_cons_self _ _)]; rfl)
    have h1 : findIdxFrom isWSChar (ds ++ ' ' :: renderWords hws) 0
        = some ds.length := findIdxFrom_sep ds _ hdsnws
    have hNle : asInt ds ≤ 0 + 32 * hws.length := by omega
    have hloop := wordLoop_spec hws (ds ++ ' ' :: renderWords hws) ds b 0
      (asInt ds) (fun _ => rfl) hcond (Nat.zero_le _) hNle
    have hfoldpre : b.bits_used + 32 * (hws.map x2uint).length
        ≤ b.bits.length := by
      simp only [List.length_map]
      omega
    obtain ⟨hfu, hflen, hfbits⟩ := foldAdd32_spec (hws.map x2uint) b hfoldpre
    simp only [rawBitInput, h0, h1, List.drop_zero, List.take_left, hk, hloop,
      Except.map]
    rw [hfbits, hbu]
    simp only [List.take_zero, List.nil_append, Nat.zero_add, List.length_map,
      List.map_map, Function.comp_def]
    unfold listResize
    have hfl := flatten32_length hws
    rw [List.take_append_of_le_length (by omega),
      show asInt ds
          - ((hws.map (fun w => bitsOf (x2uint w) 32)).flatten
            ++ b.bits.drop (32 * hws.length)).length = 0 by
        simp only [List.length_append, List.length_drop, hfl]
        omega,
      List.replicate_zero, List.append_nil]
  · rfl

theorem claim_C7_importFromText_witness :
    (['6', '4'] : List Char) ≠ [] ∧
    (∀ c ∈ (['6', '4'] : List Char), isWSChar c = false) ∧
    (∀ w ∈ [("0xABCD1234".toList), ("0x00000000".toList)], w ≠ [] ∧
      (∀ c ∈ w, isWSChar c = false) ∧
      (w.take 2 = ['0', 'x'] ∨ w.take 2 = ['0', 'X']) ∧ x2uint w ≤ 2 ^ 32 - 1) ∧
    (asInt ['6', '4'] - 1) / 32 + 1
        = ([("0xABCD1234".toList), ("0x00000000".toList)] : List (List Char)).length ∧
    freshPNB.bits_used = 0 ∧
    32 * ([("0xABCD1234".toList), ("0x00000000".toList)] : List (List Char)).length
        ≤ freshPNB.bits.length ∧
    (rawBitInput freshPNB (['6', '4'] ++ ' '
        :: renderWords [("0xABCD1234".toList), ("0x00000000".toList)])).map
        (fun b2 => (b2.bits_used, b2.bits))
      = .ok (asInt ['6', '4'],
          (([("0xABCD1234".toList), ("0x00000000".toList)].map
            (fun w => bitsOf (x2uint w) 32)).flatten).take (asInt ['6', '4'])) :=
  ⟨by decide, by decide, by decide, by decide, rfl, by decide,
    claim_C7_importFromText.1 ['6', '4'] _ freshPNB (by decide) (by decide)
      (by decide) (by decide) rfl (by decide)⟩

end GPSTk
